import Mathlib

/-! The batch classification engine of `src/main.c` (llm_image_search).

A shallow embedding of the batch search of `main.c`: the search and stop
buttons, the worker thread that posts a response, and the block of the main
loop that consumes a posted response, together with the C helpers they use.

C strings are lists of characters; the end of the list is the terminating NUL.
The catalog `files` is the list `files.paths[0 .. files.count)`.
-/

namespace LlmImageSearch

/-! ## C library functions used by the program -/

/-- The function `tolower` of the C locale: only `A`..`Z` are mapped. -/
def tolower (c : Char) : Char :=
  if 65 ≤ c.toNat ∧ c.toNat ≤ 90 then Char.ofNat (c.toNat + 32) else c

/-- The function `isspace` of the C locale: space, `\t`, `\n`, `\v`, `\f`, `\r`. -/
def isspace (c : Char) : Bool :=
  c.toNat = 32 || (9 ≤ c.toNat && c.toNat ≤ 13)

/-- The function `strncasecmp s1 s2 n`: compares at most `n` characters, ignoring
case, and stops at the first difference or at the end of both strings. -/
def strncasecmp : List Char → List Char → Nat → Int
  | _, _, 0 => 0
  | [], [], _ + 1 => 0
  | [], b :: _, _ + 1 => -((tolower b).toNat : Int)
  | a :: _, [], _ + 1 => ((tolower a).toNat : Int)
  | a :: as, b :: bs, n + 1 =>
    if tolower a = tolower b then strncasecmp as bs n
    else ((tolower a).toNat : Int) - ((tolower b).toNat : Int)

/-- The function `strcasecmp s1 s2`: as `strncasecmp` without a length limit. -/
def strcasecmp (s1 s2 : List Char) : Int :=
  strncasecmp s1 s2 (max s1.length s2.length + 1)

/-- The function `strrchr s c`: the tail of `s` that starts at the last
occurrence of `c`, or `none` (NULL) when `c` does not occur. -/
def strrchr : List Char → Char → Option (List Char)
  | [], _ => none
  | x :: xs, c =>
    match strrchr xs c with
    | some r => some r
    | none => if x = c then some (x :: xs) else none

/-! ## `has_image_extension` (main.c 27-39) -/

/-- The eligibility predicate `has_image_extension`. -/
def has_image_extension (filename : String) : Bool :=
  match strrchr filename.toList '.' with
  | none => false
  | some ext =>
    let ext := ext.drop 1
    if strcasecmp ext "png".toList = 0 then true
    else if strcasecmp ext "jpg".toList = 0 then true
    else if strcasecmp ext "jpeg".toList = 0 then true
    else if strcasecmp ext "gif".toList = 0 then true
    else if strcasecmp ext "bmp".toList = 0 then true
    else if strcasecmp ext "webp".toList = 0 then true
    else false

/-! ## The jansson values read by the response handler -/

/-- A parsed JSON value, as jansson's `json_t`. A NULL `json_t *` is `none`. -/
inductive Json where
  | null : Json
  | bool (b : Bool) : Json
  | integer (n : Int) : Json
  | string (s : String) : Json
  | array (items : List Json) : Json
  | object (members : List (String × Json)) : Json

/-- The jansson function `json_object_get`: NULL unless the value is an object
that has the key. -/
def json_object_get (json : Option Json) (key : String) : Option Json :=
  match json with
  | some (Json.object members) => (members.find? (fun m => m.1 == key)).map (fun m => m.2)
  | _ => none

/-- The jansson test `json_is_array`. -/
def json_is_array (json : Option Json) : Bool :=
  match json with
  | some (Json.array _) => true
  | _ => false

/-- The jansson test `json_is_object`. -/
def json_is_object (json : Option Json) : Bool :=
  match json with
  | some (Json.object _) => true
  | _ => false

/-- The jansson function `json_array_size`: 0 unless the value is an array. -/
def json_array_size (json : Option Json) : Nat :=
  match json with
  | some (Json.array items) => items.length
  | _ => 0

/-- The jansson function `json_array_get`: NULL unless the value is an array
with an element at `index`. -/
def json_array_get (json : Option Json) (index : Nat) : Option Json :=
  match json with
  | some (Json.array items) => items[index]?
  | _ => none

/-- The jansson function `json_string_value`: NULL unless the value is a string. -/
def json_string_value (json : Option Json) : Option String :=
  match json with
  | some (Json.string s) => some s
  | _ => none

/-! ## The environment and the program state -/

/-- What the program takes from outside: jansson's parser `json_loads` applied to
a response body, and whether the local preparation of a request for a file
(open, read, encode, allocate: main.c 319-356) goes through. -/
structure Env where
  json_loads : String → Option Json
  prepare_ok : String → Bool

/-- The globals of `main.c` that the batch search reads and writes, with two
ghost fields: `workers` counts the detached `llm_thread_func` threads that have
been created and have not yet posted, and `submitted` lists, oldest first, the
paths passed to `start_llm_task_for_file`. -/
structure State where
  files : List String
  selectedIndex : Int
  llm_response : Option String
  llm_response_ready : Bool
  batch_search_active : Bool
  batch_search_index : Nat
  stop_requested : Bool
  workers : Nat
  submitted : List String

/-- The state of the program once a catalog is loaded and before any search. -/
def initial (files : List String) : State :=
  { files := files, selectedIndex := -1, llm_response := none,
    llm_response_ready := false, batch_search_active := false,
    batch_search_index := 0, stop_requested := false, workers := 0, submitted := [] }

/-! ## The worker (main.c 299-364) -/

/-- The end of `llm_thread_func`: the worker stores its response (NULL when the
request failed) in the single slot, replacing what is there, and sets the ready
flag. -/
def llm_thread_func (response : Option String) (s : State) : State :=
  { s with llm_response := response, llm_response_ready := true, workers := s.workers - 1 }

/-- The function `start_llm_task_for_file`: when the local preparation fails it
returns without creating a thread; otherwise it creates one detached worker. -/
def start_llm_task_for_file (env : Env) (filepath : String) (s : State) : State :=
  let s := { s with submitted := s.submitted ++ [filepath] }
  if env.prepare_ok filepath then { s with workers := s.workers + 1 } else s

/-! ## The loops of the batch search -/

/-- The loop `while (i < count && !has_image_extension(paths[i])) i++`, run for
at most `fuel` iterations. -/
def skip_loop (files : List String) : Nat → Nat → Nat
  | 0, i => i
  | fuel + 1, i =>
    if i < files.length && !has_image_extension (files.getD i "") then
      skip_loop files fuel (i + 1)
    else i

/-- The skip loop of main.c 500-503 and 897-900, started at index `i`; it makes
at most `count - i` iterations. -/
def skip_non_images (files : List String) (i : Nat) : Nat :=
  skip_loop files (files.length - i) i

/-- The loop `for (j = i; j < count - 1; ++j) paths[j] = paths[j + 1]` of
main.c 877-879, run for at most `fuel` iterations. -/
def shift_left (paths : List String) : Nat → Nat → List String
  | 0, _ => paths
  | fuel + 1, j =>
    if j + 1 < paths.length then
      shift_left (paths.set j (paths.getD (j + 1) "")) fuel (j + 1)
    else paths

/-- The removal of main.c 876-880: shift the later paths down by one, then
`files.count--`. -/
def remove_current_file (files : List String) (i : Nat) : List String :=
  (shift_left files (files.length - i) i).take (files.length - 1)

/-! ## The verdict (main.c 863-872) -/

/-- The flag `keep` computed from the content of the reply; `none` is a NULL
`content`. -/
def keep_of_content (content : Option String) : Bool :=
  match content with
  | none => true
  | some c =>
    let p := c.toList.dropWhile isspace
    if strncasecmp p "yes".toList 3 = 0 then true
    else if strncasecmp p "no".toList 2 = 0 then false
    else true

/-! ## The buttons and the response handler -/

/-- The search button (main.c 492-510). -/
def start (env : Env) (s : State) : State :=
  if !s.batch_search_active then
    let s := { s with batch_search_active := true, stop_requested := false,
                      batch_search_index := 0 }
    let s := { s with batch_search_index := skip_non_images s.files s.batch_search_index }
    if s.batch_search_index < s.files.length then
      start_llm_task_for_file env (s.files.getD s.batch_search_index "") s
    else { s with batch_search_active := false }
  else s

/-- The stop button (main.c 512-515). -/
def stop (s : State) : State :=
  if s.batch_search_active then
    { s with stop_requested := true, batch_search_active := false }
  else s

/-- The parse of main.c 837-856: `none` when the handler takes one of its error
branches (NULL or unparseable body, `choices` missing, not an array, or empty),
otherwise the `content` pointer it extracts, itself NULL (`none`) when `message`
is not an object or `content` is not a string. -/
def parse_response (env : Env) (response : Option String) : Option (Option String) :=
  match response.bind env.json_loads with
  | none => none
  | some root =>
    let choices := json_object_get (some root) "choices"
    if json_is_array choices && json_array_size choices > 0 then
      let first := json_array_get choices 0
      let message := json_object_get first "message"
      if json_is_object message then
        some (json_string_value (json_object_get message "content"))
      else some none
    else none

/-- The batch search handling of main.c 861-908, entered with the extracted
`content` when `batch_search_active` holds. -/
def batch_step (env : Env) (content : Option String) (s : State) : State :=
  let keep := keep_of_content content
  let s :=
    if !keep && s.batch_search_index < s.files.length then
      { s with
        files := remove_current_file s.files s.batch_search_index,
        selectedIndex :=
          if s.selectedIndex = s.batch_search_index then -1
          else if s.selectedIndex > s.batch_search_index then s.selectedIndex - 1
          else s.selectedIndex }
    else s
  let s := if keep then { s with batch_search_index := s.batch_search_index + 1 } else s
  let s := { s with batch_search_index := skip_non_images s.files s.batch_search_index }
  if s.stop_requested || s.batch_search_index ≥ s.files.length then
    { s with batch_search_active := false }
  else
    start_llm_task_for_file env (s.files.getD s.batch_search_index "") s

/-- The response handler run once per iteration of the main loop
(main.c 833-920). -/
def onTick (env : Env) (s : State) : State :=
  if s.llm_response_ready then
    let s1 :=
      match parse_response env s.llm_response with
      | none => s
      | some content => if s.batch_search_active then batch_step env content s else s
    { s1 with llm_response := none, llm_response_ready := false }
  else s

/-! ## Events and runs -/

/-- What can happen to the engine: a click on Search, a click on Stop, a running
worker finishing with a response, and the response handler of one loop
iteration. -/
inductive Event where
  | start : Event
  | stop : Event
  | complete (response : Option String) : Event
  | tick : Event

/-- One event; a completion needs a worker that is running. -/
def step (env : Env) (s : State) : Event → State
  | Event.start => start env s
  | Event.stop => stop s
  | Event.complete r => if 0 < s.workers then llm_thread_func r s else s
  | Event.tick => onTick env s

/-- The state after a sequence of events. -/
def run (env : Env) (s : State) (events : List Event) : State :=
  events.foldl (step env) s

/-- The events of a batch in which each response arrives and is handled before
anything else happens. -/
def answers (responses : List (Option String)) : List Event :=
  responses.flatMap (fun r => [Event.complete r, Event.tick])

/-! ## Definitions used to state the properties -/

/-- The failures named by the handler: no response body, a body that
`json_loads` rejects, or a parsed body whose `choices` is missing, is not an
array, or is an empty array. -/
def is_failure (env : Env) (response : Option String) : Bool :=
  match response with
  | none => true
  | some body =>
    match env.json_loads body with
    | none => true
    | some root =>
      (json_object_get (some root) "choices").isNone ||
      !json_is_array (json_object_get (some root) "choices") ||
      json_array_size (json_object_get (some root) "choices") == 0

/-- A well-formed completion whose assistant message has the given content. -/
def reply (content : String) : Json :=
  Json.object [("choices", Json.array [Json.object
    [("finish_reason", Json.string "stop"),
     ("message", Json.object
        [("role", Json.string "assistant"), ("content", Json.string content)])]])]

/-- An environment for the examples: every file can be read, and the parser
reads a body as the completion with that content, except the body `garbage`,
which it rejects, and the body `null`, which is the JSON value null. -/
def sample_env : Env :=
  { json_loads := fun body =>
      if body = "garbage" then none
      else if body = "null" then some Json.null
      else some (reply body),
    prepare_ok := fun _ => true }

/-- A running batch over three files, at index 0, with a posted response. -/
def sample_running (response : Option String) : State :=
  { files := ["a.png", "b.txt", "c.jpg"], selectedIndex := -1, llm_response := response,
    llm_response_ready := true, batch_search_active := true, batch_search_index := 0,
    stop_requested := false, workers := 0, submitted := ["a.png"] }

/-- The first whitespace-delimited word of a content string, after its leading
whitespace: the reading of the specification. -/
def first_word (content : String) : List Char :=
  (content.toList.dropWhile isspace).takeWhile (fun c => !isspace c)

/-- Equality of a word and a text, ignoring case: the reading of the
specification. -/
def eq_ignoring_case (word : List Char) (text : String) : Bool :=
  word.map tolower == text.toList.map tolower

/-- A letter or a digit of the C locale. -/
def is_letter_or_digit (c : Char) : Bool :=
  (48 ≤ c.toNat && c.toNat ≤ 57) || (65 ≤ c.toNat && c.toNat ≤ 90) ||
    (97 ≤ c.toNat && c.toNat ≤ 122)

/-- The content, after its leading whitespace, begins with the letters `n` and
`o` in either case. -/
def begins_with_no (content : String) : Bool :=
  match content.toList.dropWhile isspace with
  | a :: b :: _ => tolower a == 'n' && tolower b == 'o'
  | _ => false

/-- The content, after its leading whitespace, begins with the word `no` in
either case: the letters `n` and `o` followed by the end of the content or by a
character that is neither a letter nor a digit. -/
def begins_with_word_no (content : String) : Bool :=
  match content.toList.dropWhile isspace with
  | a :: b :: rest =>
    tolower a == 'n' && tolower b == 'o' &&
      (match rest with
       | [] => true
       | x :: _ => !is_letter_or_digit x)
  | _ => false

/-- The verdict the handler draws from a response: `true` is Keep, `false` is
Drop. -/
def verdict_keep (env : Env) (response : Option String) : Bool :=
  match parse_response env response with
  | some content => keep_of_content content
  | none => true

/-- The catalog expected after a batch: the items in order, each eligible item
taking the next verdict and staying only on Keep, each ineligible item staying.
Items beyond the last verdict stay. -/
def survivors : List String → List Bool → List String
  | [], _ => []
  | f :: fs, verdicts =>
    if has_image_extension f then
      match verdicts with
      | [] => f :: fs
      | keep :: rest => if keep then f :: survivors fs rest else survivors fs rest
    else f :: survivors fs verdicts

/-- A running batch with an empty slot and no worker, whose catalog is
`done ++ tail` and whose index is the first candidate at or after the start of
`tail`. Used to state the induction over a batch. -/
def at_position (done tail : List String) (sel : Int) (resp : Option String)
    (sub : List String) : State :=
  { files := done ++ tail, selectedIndex := sel, llm_response := resp,
    llm_response_ready := false, batch_search_active := true,
    batch_search_index := skip_non_images (done ++ tail) done.length,
    stop_requested := false, workers := 0, submitted := sub }

/-- The last decision of the batch handling (main.c 902-907), on the state
whose index has been moved to the next candidate: stop, or launch the next
request. Used to state the equations of `batch_step`. -/
def dispatch_next (env : Env) (s : State) : State :=
  if s.stop_requested || s.batch_search_index ≥ s.files.length then
    { s with batch_search_active := false }
  else
    start_llm_task_for_file env (s.files.getD s.batch_search_index "") s

/-- An environment for the examples in which every body parses to a completion
whose first choice has no `message` member. -/
def bare_env : Env :=
  { json_loads := fun _ =>
      some (Json.object [("choices", Json.array [Json.object
        [("finish_reason", Json.string "stop")]])]),
    prepare_ok := fun _ => true }

/-- An environment for the examples in which no file can be read. -/
def unreadable_env : Env :=
  { json_loads := fun body => some (reply body),
    prepare_ok := fun _ => false }

/-- A parsed body whose `choices` is a non-empty array and whose first element
has a `message` that is missing or is not an object. -/
def message_not_object (root : Json) : Bool :=
  json_is_array (json_object_get (some root) "choices") &&
  decide (json_array_size (json_object_get (some root) "choices") > 0) &&
  !json_is_object
    (json_object_get (json_array_get (json_object_get (some root) "choices") 0) "message")

/-! ## The sort comparator (main.c 176-202) -/

/-- The function `char_rank` on the value of an `unsigned char`: digits are 0-9,
`a`..`z` are 10, 12, .., `A`..`Z` are 11, 13, .., every other byte is 1000 + c. -/
def char_rank (c : Nat) : Int :=
  if 48 ≤ c ∧ c ≤ 57 then (c : Int) - 48
  else if 97 ≤ c ∧ c ≤ 122 then 10 + ((c : Int) - 97) * 2
  else if 65 ≤ c ∧ c ≤ 90 then 10 + ((c : Int) - 65) * 2 + 1
  else 1000 + (c : Int)

/-- The byte `*s` of a C string given by its bytes: the terminating 0 at its
end. -/
def head_byte : List Nat → Nat
  | [] => 0
  | c :: _ => c

/-- The comparator `cmp_strings` on two C strings given by their bytes: the
loop runs while both current bytes are non-zero and returns at the first
difference of ranks; after it the ranks of the current bytes are subtracted. -/
def cmp_strings : List Nat → List Nat → Int
  | c1 :: s1, c2 :: s2 =>
    if c1 ≠ 0 ∧ c2 ≠ 0 then
      if char_rank c1 ≠ char_rank c2 then char_rank c1 - char_rank c2
      else cmp_strings s1 s2
    else char_rank c1 - char_rank c2
  | s1, s2 => char_rank (head_byte s1) - char_rank (head_byte s2)

/-! ## The eligibility test in the words of the specification -/

/-- The text of `s` after its last occurrence of `c`; the whole of `s` when `c`
does not occur in it. -/
def after_last (c : Char) (s : List Char) : List Char :=
  (s.reverse.takeWhile (fun x => x != c)).reverse

/-- The file name of a path: its final `/`-separated component. -/
def file_name (path : String) : List Char :=
  after_last '/' path.toList

/-- The six image extensions. -/
def image_extensions : List String :=
  ["png", "jpg", "jpeg", "gif", "bmp", "webp"]

/-- The eligibility of a path as the specification words it: the file name
contains a dot and the text after its last dot is, ignoring case, one of the
six image extensions. -/
def is_image_file_name (path : String) : Bool :=
  decide ('.' ∈ file_name path) &&
  image_extensions.any (fun e => eq_ignoring_case (after_last '.' (file_name path)) e)

/-! ## The Base64 encoder (main.c 209-236) -/

/-- The table `b64_encoding_table`; as a C array it ends with the NUL of the
string literal, which is what an index of 64 reads. -/
def b64_encoding_table : List Char :=
  "ABCDEFGHIJKLMNOPQRSTUVWXYZabcdefghijklmnopqrstuvwxyz0123456789+/".toList

/-- The table `b64_mod_table`. -/
def b64_mod_table : List Nat := [0, 2, 1]

/-- The four characters written for one `triple` of the encoding loop. -/
def b64_quad (octet_a octet_b octet_c : Nat) : List Char :=
  let triple := (octet_a <<< 16) ||| (octet_b <<< 8) ||| octet_c
  [b64_encoding_table.getD ((triple >>> 18) &&& 0x3F) (Char.ofNat 0),
   b64_encoding_table.getD ((triple >>> 12) &&& 0x3F) (Char.ofNat 0),
   b64_encoding_table.getD ((triple >>> 6) &&& 0x3F) (Char.ofNat 0),
   b64_encoding_table.getD (triple &&& 0x3F) (Char.ofNat 0)]

/-- The loop `for (i = 0, j = 0; i < input_length;)` of `base64_encode`, run for
at most `fuel` iterations from index `i`; `out` is `encoded_data[0 .. j)`. Each
octet is read, and `i` advanced, only while `i < input_length`. The octets are
bytes, so the 32-bit `triple` does not overflow. -/
def b64_encode_loop (data : List Nat) : Nat → Nat → List Char → List Char
  | 0, _, out => out
  | fuel + 1, i, out =>
    if i < data.length then
      let octet_a := if i < data.length then data.getD i 0 else 0
      let i := if i < data.length then i + 1 else i
      let octet_b := if i < data.length then data.getD i 0 else 0
      let i := if i < data.length then i + 1 else i
      let octet_c := if i < data.length then data.getD i 0 else 0
      let i := if i < data.length then i + 1 else i
      b64_encode_loop data fuel i (out ++ b64_quad octet_a octet_b octet_c)
    else out

/-- The function `base64_encode` on the bytes `data[0 .. input_length)`: the
encoding loop, then the loop that overwrites the last
`b64_mod_table[input_length % 3]` characters with `=`. -/
def base64_encode (data : List Nat) : List Char :=
  let input_length := data.length
  let output_length := 4 * ((input_length + 2) / 3)
  let encoded_data := b64_encode_loop data input_length 0 []
  (List.range (b64_mod_table.getD (input_length % 3) 0)).foldl
    (fun enc i => enc.set (output_length - 1 - i) '=') encoded_data

/-- The value of a character of the Base64 alphabet of RFC 4648, `none` for any
other character. -/
def b64_value (c : Char) : Option Nat :=
  if 65 ≤ c.toNat ∧ c.toNat ≤ 90 then some (c.toNat - 65)
  else if 97 ≤ c.toNat ∧ c.toNat ≤ 122 then some (c.toNat - 97 + 26)
  else if 48 ≤ c.toNat ∧ c.toNat ≤ 57 then some (c.toNat - 48 + 52)
  else if c = '+' then some 62
  else if c = '/' then some 63
  else none

/-- A strict decoder of padded Base64 (RFC 4648): the text is a sequence of
groups of four characters; only the last group may be padded, with one or two
`=`, and its unused bits must be zero; any other character outside the
alphabet, and any other length, is rejected. -/
def base64_decode : List Char → Option (List Nat)
  | [] => some []
  | c1 :: c2 :: c3 :: c4 :: rest =>
    if rest = [] ∧ c4 = '=' then
      if c3 = '=' then
        match b64_value c1, b64_value c2 with
        | some v1, some v2 =>
          if v2 % 16 = 0 then some [v1 * 4 + v2 / 16] else none
        | _, _ => none
      else
        match b64_value c1, b64_value c2, b64_value c3 with
        | some v1, some v2, some v3 =>
          if v3 % 4 = 0 then some [v1 * 4 + v2 / 16, (v2 % 16) * 16 + v3 / 4] else none
        | _, _, _ => none
    else
      match b64_value c1, b64_value c2, b64_value c3, b64_value c4 with
      | some v1, some v2, some v3, some v4 =>
        (base64_decode rest).map
          (fun tl => (v1 * 4 + v2 / 16) :: ((v2 % 16) * 16 + v3 / 4) :: ((v3 % 4) * 64 + v4) :: tl)
      | _, _, _, _ => none
  | _ => none

/-- The output of `base64_encode` group by group: a full group of three bytes
gives four characters, a last group of one or two bytes gives two or three
characters and the padding. Used to prove the properties of the encoder. -/
def b64_groups : List Nat → List Char
  | [] => []
  | [a] => (b64_quad a 0 0).take 2 ++ ['=', '=']
  | [a, b] => (b64_quad a b 0).take 3 ++ ['=']
  | a :: b :: c :: rest => b64_quad a b c ++ b64_groups rest

/-- The output of the encoding loop group by group, before the padding is
written. Used to prove the properties of the encoder. -/
def b64_raw_groups : List Nat → List Char
  | [] => []
  | [a] => b64_quad a 0 0
  | [a, b] => b64_quad a b 0
  | a :: b :: c :: rest => b64_quad a b c ++ b64_raw_groups rest

/-! ## The removal loop -/

theorem shift_left_length (paths : List String) (fuel j : Nat) :
    (shift_left paths fuel j).length = paths.length := by
  induction fuel generalizing paths j with
  | zero => rfl
  | succ fuel ih =>
    unfold shift_left
    split
    · rw [ih]; simp
    · rfl

theorem shift_left_getElem? (paths : List String) (fuel j k : Nat)
    (hfuel : paths.length ≤ j + fuel + 1) :
    (shift_left paths fuel j)[k]? =
      if k < j then paths[k]? else if k + 1 < paths.length then paths[k + 1]? else paths[k]? := by
  induction fuel generalizing paths j with
  | zero =>
    unfold shift_left
    by_cases hk : k < j
    · simp [hk]
    · have : ¬ (k + 1 < paths.length) := by omega
      simp [hk, this]
  | succ fuel ih =>
    unfold shift_left
    by_cases hj : j + 1 < paths.length
    · rw [if_pos hj, ih _ _ (by simp; omega)]
      simp only [List.length_set, List.getElem?_set, List.getD_eq_getElem?_getD]
      have hj1 : paths[j + 1]? = some paths[j + 1] := List.getElem?_eq_getElem hj
      by_cases h1 : k < j
      · have h2 : k < j + 1 := by omega
        have h3 : ¬ j = k := by omega
        simp [h1, h2, h3]
      · by_cases h2 : k = j
        · subst h2
          have h4 : k < paths.length := by omega
          simp [hj, hj1, h4]
        · have h3 : ¬ k < j + 1 := by omega
          have h4 : ¬ j = k := by omega
          have h5 : ¬ j = k + 1 := by omega
          simp [h1, h3, h4, h5]
    · rw [if_neg hj]
      by_cases hk : k < j
      · simp [hk]
      · have : ¬ (k + 1 < paths.length) := by omega
        simp [hk, this]

theorem remove_current_file_eq_eraseIdx (files : List String) (i : Nat) (hi : i < files.length) :
    remove_current_file files i = files.eraseIdx i := by
  apply List.ext_getElem?
  intro k
  unfold remove_current_file
  rw [List.getElem?_take, shift_left_getElem? _ _ _ _ (by omega), List.getElem?_eraseIdx]
  by_cases h1 : k < i
  · have h2 : k < files.length - 1 := by omega
    simp [h1, h2]
  · by_cases h2 : k < files.length - 1
    · have h3 : k + 1 < files.length := by omega
      simp [h1, h2, h3]
    · have h3 : files.length ≤ k + 1 := by omega
      simp [h1, h2, List.getElem?_eq_none h3]

theorem remove_current_file_length (files : List String) (i : Nat) (hi : i < files.length) :
    (remove_current_file files i).length = files.length - 1 := by
  rw [remove_current_file_eq_eraseIdx files i hi, List.length_eraseIdx]
  simp [hi]

/-! ## The skip loop -/

theorem skip_non_images_unroll (files : List String) (i : Nat) :
    skip_non_images files i =
      if i < files.length && !has_image_extension (files.getD i "") then
        skip_non_images files (i + 1)
      else i := by
  unfold skip_non_images
  by_cases h : i < files.length
  · have : files.length - i = (files.length - (i + 1)) + 1 := by omega
    rw [this]
    rfl
  · have : files.length - i = 0 := by omega
    rw [this]
    simp [skip_loop, h]

theorem skip_loop_ge (files : List String) (fuel i : Nat) : i ≤ skip_loop files fuel i := by
  induction fuel generalizing i with
  | zero => simp [skip_loop]
  | succ fuel ih =>
    unfold skip_loop
    split
    · have := ih (i + 1); omega
    · exact Nat.le_refl i

theorem skip_loop_le (files : List String) (fuel i : Nat) (hi : i ≤ files.length) :
    skip_loop files fuel i ≤ files.length := by
  induction fuel generalizing i with
  | zero => simpa [skip_loop] using hi
  | succ fuel ih =>
    unfold skip_loop
    split
    · rename_i h
      simp only [Bool.and_eq_true, decide_eq_true_eq] at h
      exact ih (i + 1) h.1
    · exact hi

theorem skip_loop_skipped (files : List String) (fuel i j : Nat)
    (hij : i ≤ j) (hj : j < skip_loop files fuel i) :
    has_image_extension (files.getD j "") = false := by
  induction fuel generalizing i with
  | zero => simp [skip_loop] at hj; omega
  | succ fuel ih =>
    unfold skip_loop at hj
    split at hj
    · rename_i h
      simp only [Bool.and_eq_true, decide_eq_true_eq, Bool.not_eq_true'] at h
      by_cases hji : j = i
      · subst hji; exact h.2
      · exact ih (i + 1) (by omega) hj
    · omega

theorem skip_loop_found (files : List String) (fuel i : Nat)
    (hfuel : files.length ≤ i + fuel)
    (h : skip_loop files fuel i < files.length) :
    has_image_extension (files.getD (skip_loop files fuel i) "") = true := by
  induction fuel generalizing i with
  | zero => simp [skip_loop] at h; omega
  | succ fuel ih =>
    unfold skip_loop at h ⊢
    split
    · rename_i hc
      rw [if_pos hc] at h
      exact ih (i + 1) (by omega) h
    · rename_i hc
      rw [if_neg hc] at h
      simp only [Bool.and_eq_true, decide_eq_true_eq, Bool.not_eq_true', not_and,
        Bool.not_eq_false] at hc
      exact hc h

theorem skip_non_images_ge (files : List String) (i : Nat) : i ≤ skip_non_images files i :=
  skip_loop_ge files _ i

theorem skip_non_images_le (files : List String) (i : Nat) (hi : i ≤ files.length) :
    skip_non_images files i ≤ files.length :=
  skip_loop_le files _ i hi

theorem skip_non_images_skipped (files : List String) (i j : Nat)
    (hij : i ≤ j) (hj : j < skip_non_images files i) :
    has_image_extension (files.getD j "") = false :=
  skip_loop_skipped files _ i j hij hj

theorem skip_non_images_found (files : List String) (i : Nat)
    (h : skip_non_images files i < files.length) :
    has_image_extension (files.getD (skip_non_images files i) "") = true :=
  skip_loop_found files _ i (by omega) h

/-! ## Frame facts of the worker launch -/

@[simp] theorem start_llm_task_for_file_files (env : Env) (p : String) (s : State) :
    (start_llm_task_for_file env p s).files = s.files := by
  unfold start_llm_task_for_file; split <;> rfl

@[simp] theorem start_llm_task_for_file_index (env : Env) (p : String) (s : State) :
    (start_llm_task_for_file env p s).batch_search_index = s.batch_search_index := by
  unfold start_llm_task_for_file; split <;> rfl

@[simp] theorem start_llm_task_for_file_active (env : Env) (p : String) (s : State) :
    (start_llm_task_for_file env p s).batch_search_active = s.batch_search_active := by
  unfold start_llm_task_for_file; split <;> rfl

@[simp] theorem start_llm_task_for_file_stop (env : Env) (p : String) (s : State) :
    (start_llm_task_for_file env p s).stop_requested = s.stop_requested := by
  unfold start_llm_task_for_file; split <;> rfl

@[simp] theorem start_llm_task_for_file_submitted (env : Env) (p : String) (s : State) :
    (start_llm_task_for_file env p s).submitted = s.submitted ++ [p] := by
  unfold start_llm_task_for_file; split <;> rfl

@[simp] theorem start_llm_task_for_file_workers (env : Env) (p : String) (s : State) :
    (start_llm_task_for_file env p s).workers =
      s.workers + (if env.prepare_ok p then 1 else 0) := by
  unfold start_llm_task_for_file; split <;> rfl

@[simp] theorem start_llm_task_for_file_ready (env : Env) (p : String) (s : State) :
    (start_llm_task_for_file env p s).llm_response_ready = s.llm_response_ready := by
  unfold start_llm_task_for_file; split <;> rfl

@[simp] theorem start_llm_task_for_file_response (env : Env) (p : String) (s : State) :
    (start_llm_task_for_file env p s).llm_response = s.llm_response := by
  unfold start_llm_task_for_file; split <;> rfl

@[simp] theorem start_llm_task_for_file_selected (env : Env) (p : String) (s : State) :
    (start_llm_task_for_file env p s).selectedIndex = s.selectedIndex := by
  unfold start_llm_task_for_file; split <;> rfl

/-! ## The handler on a parsed reply -/

theorem onTick_of_reply (env : Env) (s : State) (content : Option String)
    (hready : s.llm_response_ready = true)
    (hparse : parse_response env s.llm_response = some content)
    (hactive : s.batch_search_active = true) :
    onTick env s =
      { batch_step env content s with llm_response := none, llm_response_ready := false } := by
  simp [onTick, hready, hparse, hactive]

theorem batch_step_keep (env : Env) (content : Option String) (s : State)
    (hk : keep_of_content content = true) :
    batch_step env content s =
      dispatch_next env
        { s with batch_search_index := skip_non_images s.files (s.batch_search_index + 1) } := by
  simp [batch_step, dispatch_next, hk]

theorem batch_step_drop (env : Env) (content : Option String) (s : State)
    (hk : keep_of_content content = false) (hi : s.batch_search_index < s.files.length) :
    batch_step env content s =
      dispatch_next env
        { s with
          files := remove_current_file s.files s.batch_search_index,
          selectedIndex :=
            if s.selectedIndex = s.batch_search_index then -1
            else if s.selectedIndex > s.batch_search_index then s.selectedIndex - 1
            else s.selectedIndex,
          batch_search_index :=
            skip_non_images (remove_current_file s.files s.batch_search_index)
              s.batch_search_index } := by
  simp [batch_step, dispatch_next, hk, hi]

theorem batch_step_drop_outside (env : Env) (content : Option String) (s : State)
    (hk : keep_of_content content = false) (hi : ¬ s.batch_search_index < s.files.length) :
    batch_step env content s =
      dispatch_next env
        { s with batch_search_index := skip_non_images s.files s.batch_search_index } := by
  simp [batch_step, dispatch_next, hk, hi]

@[simp] theorem dispatch_next_files (env : Env) (s : State) :
    (dispatch_next env s).files = s.files := by
  unfold dispatch_next; split <;> simp

@[simp] theorem dispatch_next_index (env : Env) (s : State) :
    (dispatch_next env s).batch_search_index = s.batch_search_index := by
  unfold dispatch_next; split <;> simp

@[simp] theorem dispatch_next_stop (env : Env) (s : State) :
    (dispatch_next env s).stop_requested = s.stop_requested := by
  unfold dispatch_next; split <;> simp

@[simp] theorem dispatch_next_ready (env : Env) (s : State) :
    (dispatch_next env s).llm_response_ready = s.llm_response_ready := by
  unfold dispatch_next; split <;> simp

theorem dispatch_next_idle (env : Env) (s : State)
    (h : s.stop_requested = true ∨ s.files.length ≤ s.batch_search_index) :
    dispatch_next env s = { s with batch_search_active := false } := by
  unfold dispatch_next
  rw [if_pos]
  simpa using h

theorem dispatch_next_launch (env : Env) (s : State)
    (h1 : s.stop_requested = false) (h2 : s.batch_search_index < s.files.length) :
    dispatch_next env s =
      start_llm_task_for_file env (s.files.getD s.batch_search_index "") s := by
  unfold dispatch_next
  rw [if_neg]
  simp [h1, h2]

theorem batch_step_eq_dispatch_next (env : Env) (content : Option String) (s : State) :
    ∃ s0 k, batch_step env content s = dispatch_next env s0 ∧
      s0.stop_requested = s.stop_requested ∧ s0.submitted = s.submitted ∧
      s0.workers = s.workers ∧ s0.batch_search_active = s.batch_search_active ∧
      s0.batch_search_index = skip_non_images s0.files k := by
  by_cases hk : keep_of_content content = true
  · exact ⟨_, _, batch_step_keep env content s hk, rfl, rfl, rfl, rfl, rfl⟩
  · simp only [Bool.not_eq_true] at hk
    by_cases hi : s.batch_search_index < s.files.length
    · exact ⟨_, _, batch_step_drop env content s hk hi, rfl, rfl, rfl, rfl, rfl⟩
    · exact ⟨_, _, batch_step_drop_outside env content s hk hi, rfl, rfl, rfl, rfl, rfl⟩

theorem parse_response_eq_none_iff (env : Env) (response : Option String) :
    parse_response env response = none ↔ is_failure env response = true := by
  unfold parse_response is_failure
  cases response with
  | none => simp
  | some body =>
    simp only [Option.some_bind]
    cases hroot : env.json_loads body with
    | none => simp
    | some root =>
      simp only
      cases hc : json_object_get (some root) "choices" with
      | none => simp [json_is_array]
      | some c =>
        cases c <;> simp [json_is_array, json_array_size]
        split <;> simp

/-- C3: when the response taken by the handler is a failure (no body, a body the
parser rejects, or `choices` missing, not an array or empty), the catalog and the
batch index after the handler are those before it. -/
theorem onTick_failure_keeps_catalog (env : Env) (s : State)
    (hready : s.llm_response_ready = true)
    (hfail : is_failure env s.llm_response = true) :
    (onTick env s).files = s.files ∧
    (onTick env s).files.length = s.files.length ∧
    (onTick env s).batch_search_index = s.batch_search_index := by
  have hp := (parse_response_eq_none_iff env s.llm_response).2 hfail
  simp [onTick, hready, hp]

theorem onTick_failure_keeps_catalog_witness :
    is_failure sample_env (some "garbage") = true ∧
    (onTick sample_env (sample_running (some "garbage"))).files = ["a.png", "b.txt", "c.jpg"] :=
  ⟨by decide,
   (onTick_failure_keeps_catalog sample_env (sample_running (some "garbage"))
      (by decide) (by decide)).1⟩

/-- C7: for an index `i` inside the catalog, the removal made on Drop yields the
catalog with element `i` erased: one item fewer, the items below `i` in place,
each item from a position `j > i` now at `j - 1`, and the rest in their order. -/
theorem remove_current_file_erases (files : List String) (i : Nat) (hi : i < files.length) :
    remove_current_file files i = files.eraseIdx i ∧
    (remove_current_file files i).length = files.length - 1 ∧
    (∀ j, j < i → (remove_current_file files i)[j]? = files[j]?) ∧
    (∀ j, i < j → j < files.length → (remove_current_file files i)[j - 1]? = files[j]?) ∧
    remove_current_file files i = files.take i ++ files.drop (i + 1) ∧
    (∀ env content s, keep_of_content content = false → s.files = files →
      s.batch_search_index = i → (batch_step env content s).files = files.eraseIdx i) := by
  have h := remove_current_file_eq_eraseIdx files i hi
  refine ⟨h, ?_, ?_, ?_, ?_, ?_⟩
  · exact remove_current_file_length files i hi
  · intro j hj
    rw [h, List.getElem?_eraseIdx_of_lt _ _ _ hj]
  · intro j hij _
    rw [h, List.getElem?_eraseIdx_of_ge _ _ _ (by omega)]
    congr 1; omega
  · rw [h, List.eraseIdx_eq_take_drop_succ]
  · intro env content s hk hf hidx
    subst hf hidx
    rw [batch_step_drop env content s hk hi]
    simp [h]

theorem remove_current_file_erases_witness :
    remove_current_file ["a.png", "b.png", "c.jpg"] 1 = ["a.png", "c.jpg"] :=
  (remove_current_file_erases ["a.png", "b.png", "c.jpg"] 1 (by decide)).1

/-- C8: when a parsed reply is handled while the batch runs at an index `i`
inside the catalog: on Keep the catalog is unchanged and the new index is the
least eligible position above `i`, or the length; on Drop the item at `i` is
erased and the new index is the least eligible position of the shrunk catalog
that is at least `i`, or its length. -/
theorem onTick_reply_moves_index (env : Env) (s : State) (content : Option String)
    (hready : s.llm_response_ready = true)
    (hparse : parse_response env s.llm_response = some content)
    (hactive : s.batch_search_active = true)
    (hi : s.batch_search_index < s.files.length) :
    (keep_of_content content = true →
      (onTick env s).files = s.files ∧
      s.batch_search_index < (onTick env s).batch_search_index ∧
      (onTick env s).batch_search_index ≤ s.files.length ∧
      (∀ j, s.batch_search_index < j → j < (onTick env s).batch_search_index →
        has_image_extension (s.files.getD j "") = false) ∧
      ((onTick env s).batch_search_index < s.files.length →
        has_image_extension (s.files.getD (onTick env s).batch_search_index "") = true)) ∧
    (keep_of_content content = false →
      (onTick env s).files = s.files.eraseIdx s.batch_search_index ∧
      s.batch_search_index ≤ (onTick env s).batch_search_index ∧
      (onTick env s).batch_search_index ≤ (onTick env s).files.length ∧
      (∀ j, s.batch_search_index ≤ j → j < (onTick env s).batch_search_index →
        has_image_extension ((onTick env s).files.getD j "") = false) ∧
      ((onTick env s).batch_search_index < (onTick env s).files.length →
        has_image_extension
          ((onTick env s).files.getD (onTick env s).batch_search_index "") = true)) := by
  rw [onTick_of_reply env s content hready hparse hactive]
  constructor
  · intro hk
    rw [batch_step_keep env content s hk]
    simp only [dispatch_next_files, dispatch_next_index]
    refine ⟨trivial, ?_, ?_, ?_, ?_⟩
    · have := skip_non_images_ge s.files (s.batch_search_index + 1); omega
    · exact skip_non_images_le s.files _ (by omega)
    · intro j h1 h2
      exact skip_non_images_skipped s.files (s.batch_search_index + 1) j (by omega) h2
    · intro h
      exact skip_non_images_found s.files _ h
  · intro hk
    rw [batch_step_drop env content s hk hi]
    simp only [dispatch_next_files, dispatch_next_index]
    have hlen : (remove_current_file s.files s.batch_search_index).length = s.files.length - 1 :=
      remove_current_file_length s.files s.batch_search_index hi
    refine ⟨remove_current_file_eq_eraseIdx s.files _ hi, ?_, ?_, ?_, ?_⟩
    · exact skip_non_images_ge _ _
    · exact skip_non_images_le _ _ (by omega)
    · intro j h1 h2
      exact skip_non_images_skipped _ s.batch_search_index j h1 h2
    · intro h
      exact skip_non_images_found _ _ h

theorem onTick_reply_moves_index_witness :
    (onTick sample_env (sample_running (some "yes"))).batch_search_index = 2 ∧
    (onTick sample_env (sample_running (some "no"))).files = ["b.txt", "c.jpg"] :=
  ⟨by decide,
   ((onTick_reply_moves_index sample_env (sample_running (some "no")) (some "no")
      (by decide) (by decide) (by decide) (by decide)).2 (by decide)).1⟩

/-- C9: after a parsed reply is handled while the batch runs, the batch is idle
and nothing was submitted when the stop flag is set or the new index is at the
end of the catalog; otherwise the batch still runs and exactly one path was
submitted, that of the item at the new index, which is inside the catalog and
eligible. -/
theorem onTick_reply_stops_or_submits (env : Env) (s : State) (content : Option String)
    (hready : s.llm_response_ready = true)
    (hparse : parse_response env s.llm_response = some content)
    (hactive : s.batch_search_active = true) :
    ((s.stop_requested = true ∨
        (onTick env s).files.length ≤ (onTick env s).batch_search_index) →
      (onTick env s).batch_search_active = false ∧
      (onTick env s).submitted = s.submitted ∧
      (onTick env s).workers = s.workers) ∧
    ((s.stop_requested = false ∧
        (onTick env s).batch_search_index < (onTick env s).files.length) →
      (onTick env s).batch_search_active = true ∧
      (onTick env s).submitted =
        s.submitted ++ [(onTick env s).files.getD (onTick env s).batch_search_index ""] ∧
      (onTick env s).files[(onTick env s).batch_search_index]? =
        some ((onTick env s).files.getD (onTick env s).batch_search_index "") ∧
      has_image_extension
        ((onTick env s).files.getD (onTick env s).batch_search_index "") = true ∧
      (onTick env s).workers = s.workers +
        (if env.prepare_ok ((onTick env s).files.getD (onTick env s).batch_search_index "")
          then 1 else 0)) := by
  rw [onTick_of_reply env s content hready hparse hactive]
  obtain ⟨s0, k, heq, hstop, hsub, hw, hact, hidx⟩ := batch_step_eq_dispatch_next env content s
  rw [heq]
  simp only [dispatch_next_files, dispatch_next_index]
  constructor
  · intro h
    rw [← hstop] at h
    rw [dispatch_next_idle env s0 h]
    exact ⟨rfl, hsub, hw⟩
  · intro h
    rw [← hstop] at h
    rw [dispatch_next_launch env s0 h.1 h.2]
    simp only [start_llm_task_for_file_active, start_llm_task_for_file_submitted,
      start_llm_task_for_file_workers, hsub, hw, hact, hactive, true_and]
    refine ⟨?_, ?_, trivial⟩
    · rw [List.getD_eq_getElem?_getD, List.getElem?_eq_getElem h.2]; rfl
    · have h2 := h.2
      rw [hidx] at h2 ⊢
      exact skip_non_images_found _ _ h2

theorem onTick_reply_stops_or_submits_witness :
    (onTick sample_env (sample_running (some "yes"))).batch_search_active = true ∧
    (onTick sample_env (sample_running (some "yes"))).submitted = ["a.png", "c.jpg"] :=
  ⟨((onTick_reply_stops_or_submits sample_env (sample_running (some "yes")) (some "yes")
      (by decide) (by decide) (by decide)).2 ⟨by decide, by decide⟩).1,
   by decide⟩

/-! ## The search button -/

theorem start_of_idle (env : Env) (s : State) (h : s.batch_search_active = false) :
    start env s =
      if skip_non_images s.files 0 < s.files.length then
        start_llm_task_for_file env (s.files.getD (skip_non_images s.files 0) "")
          { s with batch_search_active := true, stop_requested := false,
                   batch_search_index := skip_non_images s.files 0 }
      else
        { s with batch_search_active := false, stop_requested := false,
                 batch_search_index := skip_non_images s.files 0 } := by
  simp [start, h]

theorem skip_non_images_lt_of_mem (files : List String) (f : String)
    (hf : f ∈ files) (he : has_image_extension f = true) :
    skip_non_images files 0 < files.length := by
  by_contra hlt
  obtain ⟨j, hj, hfj⟩ := List.getElem_of_mem hf
  have h := skip_non_images_skipped files 0 j (Nat.zero_le j) (by omega)
  rw [List.getD_eq_getElem?_getD, List.getElem?_eq_getElem hj] at h
  simp only [Option.getD_some] at h
  rw [hfj, he] at h
  exact Bool.noConfusion h

theorem getD_mem_of_lt (files : List String) (j : Nat) (hj : j < files.length) :
    files.getD j "" ∈ files := by
  rw [List.getD_eq_getElem?_getD, List.getElem?_eq_getElem hj]
  exact List.getElem_mem hj

/-- C10: the search button on an idle batch starts a batch at the first eligible
item, clears the stop flag and submits that item once, or stays idle and submits
nothing when the catalog has no eligible item; on a running batch it changes
nothing. -/
theorem start_button (env : Env) (s : State) :
    (s.batch_search_active = false →
      (∃ f, f ∈ s.files ∧ has_image_extension f = true) →
        (start env s).batch_search_active = true ∧
        (start env s).files = s.files ∧
        (start env s).batch_search_index < s.files.length ∧
        has_image_extension (s.files.getD (start env s).batch_search_index "") = true ∧
        (∀ j, j < (start env s).batch_search_index →
          has_image_extension (s.files.getD j "") = false) ∧
        (start env s).stop_requested = false ∧
        (start env s).submitted =
          s.submitted ++ [s.files.getD (start env s).batch_search_index ""]) ∧
    (s.batch_search_active = false →
      (∀ f, f ∈ s.files → has_image_extension f = false) →
        (start env s).batch_search_active = false ∧
        (start env s).files = s.files ∧
        (start env s).submitted = s.submitted ∧
        (start env s).workers = s.workers) ∧
    (s.batch_search_active = true → start env s = s) := by
  refine ⟨?_, ?_, ?_⟩
  · rintro hidle ⟨f, hf, he⟩
    have hlt := skip_non_images_lt_of_mem s.files f hf he
    rw [start_of_idle env s hidle, if_pos hlt]
    simp only [start_llm_task_for_file_active, start_llm_task_for_file_files,
      start_llm_task_for_file_index, start_llm_task_for_file_stop,
      start_llm_task_for_file_submitted, true_and]
    refine ⟨hlt, skip_non_images_found s.files 0 hlt, ?_, trivial⟩
    intro j hj
    exact skip_non_images_skipped s.files 0 j (Nat.zero_le j) hj
  · intro hidle hnone
    have hge : ¬ skip_non_images s.files 0 < s.files.length := by
      intro hlt
      have h1 := skip_non_images_found s.files 0 hlt
      rw [hnone _ (getD_mem_of_lt s.files _ hlt)] at h1
      exact Bool.noConfusion h1
    rw [start_of_idle env s hidle, if_neg hge]
    exact ⟨rfl, rfl, rfl, rfl⟩
  · intro hrun
    simp [start, hrun]

theorem start_button_witness :
    ((start sample_env (initial ["b.txt", "a.png"])).batch_search_active = true ∧
      (start sample_env (initial ["b.txt", "a.png"])).batch_search_index = 1) ∧
    (start sample_env (initial ["b.txt"])).batch_search_active = false ∧
    start sample_env (sample_running none) = sample_running none :=
  ⟨⟨((start_button sample_env (initial ["b.txt", "a.png"])).1 (by decide)
        ⟨"a.png", by decide, by decide⟩).1, by decide⟩,
   ((start_button sample_env (initial ["b.txt"])).2.1 (by decide) (by decide)).1,
   (start_button sample_env (sample_running none)).2.2 (by decide)⟩

/-! ## The verdict -/

theorem char_toNat_inj (a b : Char) (h : a.toNat = b.toNat) : a = b := by
  apply Char.ext
  cases a with | mk va ha =>
  cases b with | mk vb hb =>
  simp only [Char.toNat] at h
  cases va with | mk fa =>
  cases vb with | mk fb =>
  simp only [UInt32.toNat] at h
  simp only
  congr 1
  exact BitVec.eq_of_toNat_eq h

theorem char_diff_ne_zero (x y : Char) (h : x ≠ y) :
    ((x.toNat : Int) - (y.toNat : Int)) ≠ 0 := by
  intro h0
  apply h
  apply char_toNat_inj
  omega

theorem strncasecmp_cons_eq_zero (a b : Char) (as bs : List Char) (n : Nat) :
    strncasecmp (a :: as) (b :: bs) (n + 1) = 0 ↔
      tolower a = tolower b ∧ strncasecmp as bs n = 0 := by
  have hunfold : strncasecmp (a :: as) (b :: bs) (n + 1) =
      if tolower a = tolower b then strncasecmp as bs n
      else ((tolower a).toNat : Int) - ((tolower b).toNat : Int) := rfl
  rw [hunfold]
  by_cases h : tolower a = tolower b
  · rw [if_pos h]
    exact ⟨fun h0 => ⟨h, h0⟩, fun h0 => h0.2⟩
  · rw [if_neg h]
    exact ⟨fun h0 => absurd h0 (char_diff_ne_zero _ _ h), fun h0 => absurd h0.1 h⟩

theorem strncasecmp_no (p : List Char) :
    strncasecmp p "no".toList 2 = 0 ↔
      ∃ a b rest, p = a :: b :: rest ∧ tolower a = 'n' ∧ tolower b = 'o' := by
  have hn : tolower 'n' = 'n' := by decide
  have ho : tolower 'o' = 'o' := by decide
  have hlit : "no".toList = ['n', 'o'] := rfl
  rw [hlit]
  match p with
  | [] =>
    constructor
    · intro h; exact absurd h (by decide)
    · rintro ⟨a, b, rest, hp, _⟩; exact List.noConfusion hp
  | [a] =>
    rw [strncasecmp_cons_eq_zero]
    constructor
    · rintro ⟨_, h⟩; exact absurd h (by decide)
    · rintro ⟨a1, b1, rest1, hp, _⟩
      injection hp with _ h2
      exact List.noConfusion h2
  | a :: b :: rest =>
    rw [strncasecmp_cons_eq_zero, strncasecmp_cons_eq_zero, hn, ho]
    constructor
    · rintro ⟨ha, hb, _⟩; exact ⟨a, b, rest, rfl, ha, hb⟩
    · rintro ⟨a1, b1, rest1, hp, ha, hb⟩
      injection hp with h1 h2
      injection h2 with h2 h3
      subst h1 h2
      exact ⟨ha, hb, by simp [strncasecmp]⟩

theorem strncasecmp_yes_head (a : Char) (rest : List Char)
    (h : strncasecmp (a :: rest) "yes".toList 3 = 0) : tolower a = 'y' := by
  have hy : tolower 'y' = 'y' := by decide
  have hlit : "yes".toList = ['y', 'e', 's'] := rfl
  rw [hlit, strncasecmp_cons_eq_zero, hy] at h
  exact h.1

/-- The flag `keep` in terms of the two characters that follow the leading
whitespace, as `strncasecmp` reads them. -/
theorem keep_of_content_two_letters (content : Option String) :
    (keep_of_content content = false ↔
      ∃ c a b rest, content = some c ∧ c.toList.dropWhile isspace = a :: b :: rest ∧
        tolower a = 'n' ∧ tolower b = 'o') ∧
    (keep_of_content content ≠ false → keep_of_content content = true) ∧
    (∀ c, content = some c → eq_ignoring_case (first_word c) "no" = true →
      keep_of_content content = false) := by
  have main : keep_of_content content = false ↔
      ∃ c a b rest, content = some c ∧ c.toList.dropWhile isspace = a :: b :: rest ∧
        tolower a = 'n' ∧ tolower b = 'o' := by
    cases content with
    | none =>
      constructor
      · intro h; exact absurd h (by decide)
      · rintro ⟨c, a, b, rest, hc, _⟩; exact Option.noConfusion hc
    | some c =>
      have hex : (∃ c1 a b rest, some c = some c1 ∧
            c1.toList.dropWhile isspace = a :: b :: rest ∧ tolower a = 'n' ∧ tolower b = 'o') ↔
          (∃ a b rest, c.toList.dropWhile isspace = a :: b :: rest ∧
            tolower a = 'n' ∧ tolower b = 'o') := by
        constructor
        · rintro ⟨c1, a, b, rest, hc, h⟩
          cases hc
          exact ⟨a, b, rest, h⟩
        · rintro ⟨a, b, rest, h⟩
          exact ⟨c, a, b, rest, rfl, h⟩
      rw [hex, ← strncasecmp_no]
      have hunfold : keep_of_content (some c) =
          if strncasecmp (c.toList.dropWhile isspace) "yes".toList 3 = 0 then true
          else if strncasecmp (c.toList.dropWhile isspace) "no".toList 2 = 0 then false
          else true := rfl
      rw [hunfold]
      by_cases hyes : strncasecmp (c.toList.dropWhile isspace) "yes".toList 3 = 0
      · rw [if_pos hyes]
        constructor
        · intro h; exact Bool.noConfusion h
        · intro hno
          obtain ⟨a, b, rest, hp, ha, _⟩ := (strncasecmp_no _).1 hno
          rw [hp] at hyes
          have := strncasecmp_yes_head a _ hyes
          rw [ha] at this
          exact absurd this (by decide)
      · rw [if_neg hyes]
        by_cases hno : strncasecmp (c.toList.dropWhile isspace) "no".toList 2 = 0
        · rw [if_pos hno]
          exact ⟨fun _ => hno, fun _ => rfl⟩
        · rw [if_neg hno]
          exact ⟨fun h => Bool.noConfusion h, fun h => absurd h hno⟩
  refine ⟨main, ?_, ?_⟩
  · intro h
    cases hk : keep_of_content content
    · exact absurd hk h
    · rfl
  · intro c hc hw
    rw [main]
    refine ⟨c, ?_⟩
    simp only [eq_ignoring_case, first_word, beq_iff_eq] at hw
    have hlit : "no".toList.map tolower = ['n', 'o'] := by decide
    rw [hlit] at hw
    generalize c.toList.dropWhile isspace = p at hw ⊢
    match p, hw with
    | [], hw => simp at hw
    | [a], hw =>
      simp only [List.takeWhile] at hw
      split at hw <;> simp at hw
    | a :: b :: rest, hw =>
      refine ⟨a, b, rest, hc, rfl, ?_⟩
      simp only [List.takeWhile] at hw
      split at hw
      · split at hw
        · simp only [List.map_cons, List.cons.injEq] at hw
          exact ⟨hw.1, hw.2.1⟩
        · simp at hw
      · simp at hw

/-- C2, as the code has it by design: the verdict is Drop when the content, after
its leading whitespace, begins with the word `no` in either case, that is with
`n`, `o` and then the end of the content or a character that is neither a letter
nor a digit; in particular when the first whitespace-delimited word is `no`
ignoring case. The verdict is Keep when the content does not begin with the
letters `n`, `o` after its leading whitespace, and when the content is absent. -/
theorem keep_of_content_word_no (content : Option String) :
    (∀ c, content = some c → begins_with_word_no c = true →
      keep_of_content content = false) ∧
    (∀ c, content = some c → eq_ignoring_case (first_word c) "no" = true →
      keep_of_content content = false) ∧
    (∀ c, content = some c → begins_with_no c = false →
      keep_of_content content = true) ∧
    (content = none → keep_of_content content = true) := by
  obtain ⟨hiff, _, hword⟩ := keep_of_content_two_letters content
  refine ⟨?_, hword, ?_, ?_⟩
  · intro c hc hb
    rw [hiff]
    unfold begins_with_word_no at hb
    split at hb
    · rename_i a b rest hp
      simp only [Bool.and_eq_true, beq_iff_eq] at hb
      exact ⟨c, a, b, rest, hc, hp, hb.1.1, hb.1.2⟩
    · exact Bool.noConfusion hb
  · intro c hc hb
    cases hk : keep_of_content content with
    | true => rfl
    | false =>
      obtain ⟨c1, a, b, rest, hc1, hp, ha, hb1⟩ := hiff.1 hk
      rw [hc] at hc1
      cases hc1
      unfold begins_with_no at hb
      rw [hp] at hb
      simp [ha, hb1] at hb
  · intro hnone
    rw [hnone]
    rfl

theorem keep_of_content_word_no_witness :
    keep_of_content (some "  No, it does not") = false ∧
    keep_of_content (some "no") = false ∧
    keep_of_content (some "no way") = false ∧
    keep_of_content (some "maybe") = true :=
  ⟨(keep_of_content_word_no (some "  No, it does not")).1 _ rfl (by decide),
   (keep_of_content_word_no (some "no")).1 _ rfl (by decide),
   (keep_of_content_word_no (some "no way")).2.1 _ rfl (by decide),
   (keep_of_content_word_no (some "maybe")).2.2.1 _ rfl (by decide)⟩

/-- C2 fails as stated: the content `No.` has the first whitespace-delimited
word `No.`, which is not `no` ignoring case, and the code gives it the verdict
Drop. -/
theorem keep_of_content_punctuated_no_counterexample :
    keep_of_content (some "No.") = false ∧
    eq_ignoring_case (first_word "No.") "no" = false := by
  decide

/-! ## A whole batch -/

theorem skip_at_end (done : List String) :
    skip_non_images (done ++ []) done.length = done.length := by
  rw [skip_non_images_unroll]
  simp

theorem getD_append_cons (done : List String) (t : String) (ts : List String) :
    (done ++ t :: ts).getD done.length "" = t := by
  induction done with
  | nil => rfl
  | cons d ds ih => simpa using ih

theorem skip_at_eligible (done : List String) (t : String) (ts : List String)
    (ht : has_image_extension t = true) :
    skip_non_images (done ++ t :: ts) done.length = done.length := by
  rw [skip_non_images_unroll, getD_append_cons]
  simp [ht]

theorem skip_at_ineligible (done : List String) (t : String) (ts : List String)
    (ht : has_image_extension t = false) :
    skip_non_images (done ++ t :: ts) done.length =
      skip_non_images ((done ++ [t]) ++ ts) (done ++ [t]).length := by
  rw [skip_non_images_unroll, getD_append_cons]
  simp [ht]

theorem at_position_ineligible (done : List String) (t : String) (ts : List String)
    (sel : Int) (resp : Option String) (sub : List String)
    (ht : has_image_extension t = false) :
    at_position done (t :: ts) sel resp sub = at_position (done ++ [t]) ts sel resp sub := by
  unfold at_position
  rw [skip_at_ineligible done t ts ht]
  simp

theorem dispatch_next_clear (env : Env) (s : State) :
    { dispatch_next env s with llm_response := none, llm_response_ready := false } =
      dispatch_next env { s with llm_response := none, llm_response_ready := false } := by
  unfold dispatch_next start_llm_task_for_file
  simp only
  split <;> [rfl; (split <;> rfl)]

theorem eraseIdx_append_cons (done : List String) (t : String) (ts : List String) :
    (done ++ t :: ts).eraseIdx done.length = done ++ ts := by
  induction done with
  | nil => rfl
  | cons d ds ih => simp [List.eraseIdx, ih]

theorem answer_keep (env : Env) (hprep : ∀ f, env.prepare_ok f = true)
    (done : List String) (t : String) (ts : List String)
    (sel : Int) (resp : Option String) (sub : List String)
    (r content : Option String)
    (ht : has_image_extension t = true)
    (hparse : parse_response env r = some content)
    (hk : keep_of_content content = true) :
    onTick env (step env (dispatch_next env (at_position done (t :: ts) sel resp sub))
        (Event.complete r)) =
      dispatch_next env (at_position (done ++ [t]) ts sel none (sub ++ [t])) := by
  have hlaunch : dispatch_next env (at_position done (t :: ts) sel resp sub) =
      { at_position done (t :: ts) sel resp sub with
        submitted := sub ++ [t], workers := 1 } := by
    rw [dispatch_next_launch _ _ rfl
      (by simp only [at_position]; rw [skip_at_eligible done t ts ht]; simp)]
    simp only [at_position, start_llm_task_for_file]
    rw [skip_at_eligible done t ts ht, getD_append_cons, hprep t]
    simp
  rw [hlaunch]
  simp only [step, at_position, llm_thread_func, Nat.lt_one_iff, if_true, Nat.sub_self,
    Nat.zero_lt_one]
  rw [onTick_of_reply env _ content rfl hparse rfl, batch_step_keep env content _ hk,
    dispatch_next_clear]
  simp only [skip_at_eligible done t ts ht]
  congr 1
  simp [at_position]

theorem answer_drop (env : Env) (hprep : ∀ f, env.prepare_ok f = true)
    (done : List String) (t : String) (ts : List String)
    (sel : Int) (resp : Option String) (sub : List String)
    (r content : Option String)
    (ht : has_image_extension t = true)
    (hparse : parse_response env r = some content)
    (hk : keep_of_content content = false) :
    ∃ sel1, onTick env (step env (dispatch_next env (at_position done (t :: ts) sel resp sub))
        (Event.complete r)) =
      dispatch_next env (at_position done ts sel1 none (sub ++ [t])) := by
  have hlaunch : dispatch_next env (at_position done (t :: ts) sel resp sub) =
      { at_position done (t :: ts) sel resp sub with
        submitted := sub ++ [t], workers := 1 } := by
    rw [dispatch_next_launch _ _ rfl
      (by simp only [at_position]; rw [skip_at_eligible done t ts ht]; simp)]
    simp only [at_position, start_llm_task_for_file]
    rw [skip_at_eligible done t ts ht, getD_append_cons, hprep t]
    simp
  rw [hlaunch]
  simp only [step, at_position, llm_thread_func, Nat.lt_one_iff, if_true, Nat.sub_self,
    Nat.zero_lt_one]
  rw [onTick_of_reply env _ content rfl hparse rfl,
    batch_step_drop env content _ hk
      (by simp only [skip_at_eligible done t ts ht]; simp),
    dispatch_next_clear]
  simp only [skip_at_eligible done t ts ht]
  rw [remove_current_file_eq_eraseIdx _ _ (by simp), eraseIdx_append_cons]
  exact ⟨_, rfl⟩

theorem run_answers_cons (env : Env) (s : State) (r : Option String)
    (rs : List (Option String)) :
    run env s (answers (r :: rs)) =
      run env (onTick env (step env s (Event.complete r))) (answers rs) := by
  simp [run, answers, step]

theorem parse_response_of_success (env : Env) (r : Option String)
    (h : is_failure env r = false) :
    ∃ content, parse_response env r = some content := by
  cases hp : parse_response env r with
  | none =>
    rw [(parse_response_eq_none_iff env r).1 hp] at h
    exact Bool.noConfusion h
  | some content => exact ⟨content, rfl⟩

theorem batch_from_position (env : Env) (hprep : ∀ f, env.prepare_ok f = true)
    (tail : List String) :
    ∀ (done : List String) (sel : Int) (resp : Option String) (sub : List String)
      (rs : List (Option String)),
      (∀ r, r ∈ rs → is_failure env r = false) →
      rs.length = (tail.filter has_image_extension).length →
      (run env (dispatch_next env (at_position done tail sel resp sub)) (answers rs)).files =
          done ++ survivors tail (rs.map (verdict_keep env)) ∧
      (run env (dispatch_next env (at_position done tail sel resp sub))
          (answers rs)).batch_search_active = false ∧
      (run env (dispatch_next env (at_position done tail sel resp sub)) (answers rs)).submitted =
          sub ++ tail.filter has_image_extension ∧
      (run env (dispatch_next env (at_position done tail sel resp sub)) (answers rs)).workers = 0 ∧
      (run env (dispatch_next env (at_position done tail sel resp sub))
          (answers rs)).llm_response_ready = false := by
  induction tail with
  | nil =>
    intro done sel resp sub rs _ hlen
    have hrs : rs = [] := List.length_eq_zero.1 (by simpa using hlen)
    subst hrs
    have hidle : dispatch_next env (at_position done [] sel resp sub) =
        { at_position done [] sel resp sub with batch_search_active := false } := by
      apply dispatch_next_idle
      right
      simp only [at_position]
      rw [skip_at_end]
      simp
    rw [hidle]
    simp [run, answers, at_position, survivors]
  | cons t ts ih =>
    intro done sel resp sub rs hok hlen
    by_cases ht : has_image_extension t = true
    · match rs, hok, hlen with
      | [], _, hlen => simp [ht] at hlen
      | r :: rs1, hok, hlen =>
        have hlen1 : rs1.length = (ts.filter has_image_extension).length := by
          simpa [ht] using hlen
        have hok1 : ∀ r, r ∈ rs1 → is_failure env r = false :=
          fun x hx => hok x (List.mem_cons_of_mem _ hx)
        obtain ⟨content, hparse⟩ :=
          parse_response_of_success env r (hok r (List.mem_cons_self _ _))
        have hv : verdict_keep env r = keep_of_content content := by
          simp [verdict_keep, hparse]
        rw [run_answers_cons]
        by_cases hk : keep_of_content content = true
        · rw [answer_keep env hprep done t ts sel resp sub r content ht hparse hk]
          obtain ⟨h1, h2, h3, h4, h5⟩ := ih (done ++ [t]) sel none (sub ++ [t]) rs1 hok1 hlen1
          refine ⟨?_, h2, ?_, h4, h5⟩
          · rw [h1]
            simp [survivors, ht, hv, hk]
          · rw [h3]
            simp [ht]
        · simp only [Bool.not_eq_true] at hk
          obtain ⟨sel1, hstep⟩ :=
            answer_drop env hprep done t ts sel resp sub r content ht hparse hk
          rw [hstep]
          obtain ⟨h1, h2, h3, h4, h5⟩ := ih done sel1 none (sub ++ [t]) rs1 hok1 hlen1
          refine ⟨?_, h2, ?_, h4, h5⟩
          · rw [h1]
            simp [survivors, ht, hv, hk]
          · rw [h3]
            simp [ht]
    · simp only [Bool.not_eq_true] at ht
      have hlen1 : rs.length = (ts.filter has_image_extension).length := by
        simpa [ht] using hlen
      rw [at_position_ineligible done t ts sel resp sub ht]
      obtain ⟨h1, h2, h3, h4, h5⟩ := ih (done ++ [t]) sel resp sub rs hok hlen1
      refine ⟨?_, h2, ?_, h4, h5⟩
      · rw [h1]
        simp [survivors, ht]
      · rw [h3]
        simp [ht]

theorem start_eq_dispatch_next (env : Env) (s : State)
    (hidle : s.batch_search_active = false) (hready : s.llm_response_ready = false)
    (hw : s.workers = 0) :
    start env s =
      dispatch_next env (at_position [] s.files s.selectedIndex s.llm_response s.submitted) := by
  rw [start_of_idle env s hidle]
  unfold dispatch_next at_position
  simp only [List.nil_append, List.length_nil, Bool.false_eq_true, false_or, ge_iff_le,
    Bool.or_eq_true, decide_eq_true_eq]
  by_cases h : skip_non_images s.files 0 < s.files.length
  · rw [if_pos h, if_neg (by omega)]
    congr 1
    cases s
    simp_all
  · rw [if_neg h, if_pos (by omega)]
    cases s
    simp_all

theorem survivors_sublist (files : List String) :
    ∀ verdicts, (survivors files verdicts).Sublist files := by
  induction files with
  | nil => intro _; simp [survivors]
  | cons f fs ih =>
    intro verdicts
    unfold survivors
    split
    · cases verdicts with
      | nil => exact List.Sublist.refl _
      | cons keep rest =>
        simp only
        split
        · exact (ih rest).cons₂ f
        · exact (ih rest).cons f
    · exact (ih verdicts).cons₂ f

theorem survivors_keeps_ineligible (files : List String) :
    ∀ verdicts, (survivors files verdicts).filter (fun f => !has_image_extension f) =
      files.filter (fun f => !has_image_extension f) := by
  induction files with
  | nil => intro _; simp [survivors]
  | cons f fs ih =>
    intro verdicts
    unfold survivors
    by_cases hf : has_image_extension f = true
    · rw [if_pos hf]
      cases verdicts with
      | nil => rfl
      | cons keep rest =>
        simp only
        split
        · simp [hf, ih rest]
        · simp [hf, ih rest]
    · rw [if_neg hf]
      simp [hf, ih verdicts]

theorem batch_running_before_end (env : Env) (hprep : ∀ f, env.prepare_ok f = true)
    (tail : List String) :
    ∀ (done : List String) (sel : Int) (resp : Option String) (sub : List String)
      (rs : List (Option String)),
      (∀ r, r ∈ rs → is_failure env r = false) →
      rs.length < (tail.filter has_image_extension).length →
      (run env (dispatch_next env (at_position done tail sel resp sub))
          (answers rs)).batch_search_active = true ∧
      (run env (dispatch_next env (at_position done tail sel resp sub))
          (answers rs)).workers = 1 := by
  induction tail with
  | nil =>
    intro done sel resp sub rs _ hlen
    simp at hlen
  | cons t ts ih =>
    intro done sel resp sub rs hok hlen
    by_cases ht : has_image_extension t = true
    · match rs, hok, hlen with
      | [], _, _ =>
        have hlaunch : dispatch_next env (at_position done (t :: ts) sel resp sub) =
            { at_position done (t :: ts) sel resp sub with
              submitted := sub ++ [t], workers := 1 } := by
          rw [dispatch_next_launch _ _ rfl
            (by simp only [at_position]; rw [skip_at_eligible done t ts ht]; simp)]
          simp only [at_position, start_llm_task_for_file]
          rw [skip_at_eligible done t ts ht, getD_append_cons, hprep t]
          simp
        rw [hlaunch]
        simp [run, answers, at_position]
      | r :: rs1, hok, hlen =>
        have hlen1 : rs1.length < (ts.filter has_image_extension).length := by
          simpa [ht] using hlen
        have hok1 : ∀ r, r ∈ rs1 → is_failure env r = false :=
          fun x hx => hok x (List.mem_cons_of_mem _ hx)
        obtain ⟨content, hparse⟩ :=
          parse_response_of_success env r (hok r (List.mem_cons_self _ _))
        rw [run_answers_cons]
        by_cases hk : keep_of_content content = true
        · rw [answer_keep env hprep done t ts sel resp sub r content ht hparse hk]
          exact ih (done ++ [t]) sel none (sub ++ [t]) rs1 hok1 hlen1
        · simp only [Bool.not_eq_true] at hk
          obtain ⟨sel1, hstep⟩ :=
            answer_drop env hprep done t ts sel resp sub r content ht hparse hk
          rw [hstep]
          exact ih done sel1 none (sub ++ [t]) rs1 hok1 hlen1
    · simp only [Bool.not_eq_true] at ht
      have hlen1 : rs.length < (ts.filter has_image_extension).length := by
        simpa [ht] using hlen
      rw [at_position_ineligible done t ts sel resp sub ht]
      exact ih (done ++ [t]) sel resp sub rs hok hlen1

/-- C1: a batch started on an idle engine, in which every request is answered by
a successful response and stop is never pressed, ends idle with the catalog
`survivors`: each eligible item whose response gave Drop is removed and nothing
else; what is left is a sublist of the initial catalog (original relative
order) and holds every ineligible item. -/
theorem batch_removes_exactly_dropped (env : Env) (s : State) (rs : List (Option String))
    (hprep : ∀ f, env.prepare_ok f = true)
    (hidle : s.batch_search_active = false) (hready : s.llm_response_ready = false)
    (hw : s.workers = 0)
    (hok : ∀ r, r ∈ rs → is_failure env r = false)
    (hlen : rs.length = (s.files.filter has_image_extension).length) :
    (run env s (Event.start :: answers rs)).batch_search_active = false ∧
    (run env s (Event.start :: answers rs)).files =
      survivors s.files (rs.map (verdict_keep env)) ∧
    (run env s (Event.start :: answers rs)).files.Sublist s.files ∧
    (run env s (Event.start :: answers rs)).files.filter (fun f => !has_image_extension f) =
      s.files.filter (fun f => !has_image_extension f) ∧
    (∀ k, k < rs.length →
      (run env s (Event.start :: answers (rs.take k))).batch_search_active = true) := by
  have hstart : ∀ l, run env s (Event.start :: answers l) =
      run env (dispatch_next env
        (at_position [] s.files s.selectedIndex s.llm_response s.submitted)) (answers l) := by
    intro l
    rw [← start_eq_dispatch_next env s hidle hready hw]
    rfl
  have hrun : run env s (Event.start :: answers rs) =
      run env (dispatch_next env
        (at_position [] s.files s.selectedIndex s.llm_response s.submitted)) (answers rs) := by
    rw [← start_eq_dispatch_next env s hidle hready hw]
    rfl
  obtain ⟨h1, h2, _, _, _⟩ :=
    batch_from_position env hprep s.files [] s.selectedIndex s.llm_response s.submitted rs
      hok hlen
  rw [hrun]
  simp only [List.nil_append] at h1
  refine ⟨h2, h1, ?_, ?_, ?_⟩
  · rw [h1]; exact survivors_sublist _ _
  · rw [h1]; exact survivors_keeps_ineligible _ _
  · intro k hk
    rw [hstart]
    refine (batch_running_before_end env hprep s.files [] s.selectedIndex s.llm_response
      s.submitted (rs.take k) (fun r hr => hok r (List.mem_of_mem_take hr)) ?_).1
    rw [List.length_take]
    omega

theorem batch_removes_exactly_dropped_witness :
    (run sample_env (initial ["a.png", "b.png", "c.jpg"])
      (Event.start :: answers [some "yes", some "no", some "yes"])).files =
        ["a.png", "c.jpg"] ∧
    (run sample_env (initial ["a.png", "b.png", "c.jpg"])
      (Event.start :: answers [some "yes", some "no", some "yes"])).files.length = 2 :=
  ⟨(batch_removes_exactly_dropped sample_env (initial ["a.png", "b.png", "c.jpg"])
      [some "yes", some "no", some "yes"] (fun _ => rfl) (by decide) (by decide) (by decide)
      (by decide) (by decide)).2.1.trans (by decide),
   by decide⟩

/-- C6: in a batch started on an idle engine, in which every request is answered
by a successful response and stop is never pressed, the paths submitted are the
eligible items of the initial catalog, each once and in catalog order, so their
number is the number of eligible items. -/
theorem batch_submits_eligible_once (env : Env) (s : State) (rs : List (Option String))
    (hprep : ∀ f, env.prepare_ok f = true)
    (hidle : s.batch_search_active = false) (hready : s.llm_response_ready = false)
    (hw : s.workers = 0)
    (hok : ∀ r, r ∈ rs → is_failure env r = false)
    (hlen : rs.length = (s.files.filter has_image_extension).length) :
    (run env s (Event.start :: answers rs)).submitted =
      s.submitted ++ s.files.filter has_image_extension ∧
    (run env s (Event.start :: answers rs)).submitted.length =
      s.submitted.length + (s.files.filter has_image_extension).length ∧
    (∀ f, f ∈ s.files → has_image_extension f = false → f ∉ s.submitted →
      f ∉ (run env s (Event.start :: answers rs)).submitted) ∧
    (run env s (Event.start :: answers rs)).batch_search_active = false ∧
    (run env s (Event.start :: answers rs)).workers = 0 := by
  have hrun : run env s (Event.start :: answers rs) =
      run env (dispatch_next env
        (at_position [] s.files s.selectedIndex s.llm_response s.submitted)) (answers rs) := by
    rw [← start_eq_dispatch_next env s hidle hready hw]
    rfl
  obtain ⟨_, h2, h3, h4, _⟩ :=
    batch_from_position env hprep s.files [] s.selectedIndex s.llm_response s.submitted rs
      hok hlen
  rw [hrun]
  refine ⟨h3, ?_, ?_, h2, h4⟩
  · rw [h3, List.length_append]
  · intro f _ hf hnot
    rw [h3]
    simp [hnot, hf]

theorem batch_submits_eligible_once_witness :
    (run sample_env (initial ["a.png", "b.txt", "c.jpg"])
      (Event.start :: answers [some "yes", some "yes"])).submitted = ["a.png", "c.jpg"] ∧
    (run sample_env (initial ["a.png", "b.txt", "c.jpg"])
      (Event.start :: answers [some "yes", some "yes"])).submitted.length = 2 :=
  ⟨(batch_submits_eligible_once sample_env (initial ["a.png", "b.txt", "c.jpg"])
      [some "yes", some "yes"] (fun _ => rfl) (by decide) (by decide) (by decide)
      (by decide) (by decide)).1.trans (by decide),
   by decide⟩

/-- C4, where the code departs from it: after a batch is started on `a.png` and
the worker posts a failure (no body, a body the parser rejects, or a body
without `choices`), the handler leaves `batch_search_active` set, with no worker
running and the slot empty. -/
theorem failure_leaves_batch_running :
    (run sample_env (initial ["a.png"])
      [Event.start, Event.complete none, Event.tick]).batch_search_active = true ∧
    (run sample_env (initial ["a.png"])
      [Event.start, Event.complete (some "garbage"), Event.tick]).batch_search_active = true ∧
    (run sample_env (initial ["a.png"])
      [Event.start, Event.complete (some "null"), Event.tick]).batch_search_active = true ∧
    (run sample_env (initial ["a.png"])
      [Event.start, Event.complete none, Event.tick]).workers = 0 ∧
    (run sample_env (initial ["a.png"])
      [Event.start, Event.complete none, Event.tick]).llm_response_ready = false := by
  decide

/-- C5, where the code departs from it: Search, Stop, Search before the first
worker finishes leaves two workers running; when the catalog is
`a.png, b.png, c.png` and both workers answer `no` about `a.png`, the second
answer removes `b.png`. -/
theorem stop_then_start_runs_two_workers :
    (run sample_env (initial ["a.png"]) [Event.start, Event.stop, Event.start]).workers = 2 ∧
    (run sample_env (initial ["a.png", "b.png", "c.png"])
      [Event.start, Event.stop, Event.start]).submitted = ["a.png", "a.png"] ∧
    (run sample_env (initial ["a.png", "b.png", "c.png"])
      [Event.start, Event.stop, Event.start, Event.complete (some "no"), Event.tick,
        Event.complete (some "no"), Event.tick]).files = ["c.png"] := by
  decide

/-! ## The stop button -/

/-- C17: the stop button on an idle batch changes nothing: the state stays
idle and the stop flag, the index and the catalog are as before. -/
theorem stop_idle_noop (s : State) (hidle : s.batch_search_active = false) :
    stop s = s ∧
    (stop s).batch_search_active = false ∧
    (stop s).stop_requested = s.stop_requested ∧
    (stop s).batch_search_index = s.batch_search_index ∧
    (stop s).files = s.files := by
  have h : stop s = s := by simp [stop, hidle]
  rw [h]
  exact ⟨rfl, hidle, rfl, rfl, rfl⟩

theorem stop_idle_noop_witness :
    stop (initial ["a.png"]) = initial ["a.png"] :=
  (stop_idle_noop (initial ["a.png"]) (by decide)).1

theorem stop_active (s : State) : (stop s).batch_search_active = false := by
  unfold stop
  split
  · rfl
  · rename_i h
    simpa using h

theorem stop_frame (s : State) :
    (stop s).files = s.files ∧ (stop s).batch_search_index = s.batch_search_index ∧
    (stop s).submitted = s.submitted ∧ (stop s).workers = s.workers ∧
    (stop s).llm_response = s.llm_response ∧
    (stop s).llm_response_ready = s.llm_response_ready ∧
    (stop s).selectedIndex = s.selectedIndex := by
  unfold stop
  split <;> exact ⟨rfl, rfl, rfl, rfl, rfl, rfl, rfl⟩

theorem onTick_idle (env : Env) (s : State) (hidle : s.batch_search_active = false) :
    (onTick env s).files = s.files ∧
    (onTick env s).batch_search_index = s.batch_search_index ∧
    (onTick env s).submitted = s.submitted ∧
    (onTick env s).workers = s.workers ∧
    (onTick env s).batch_search_active = false ∧
    (onTick env s).llm_response_ready = false := by
  unfold onTick
  by_cases hready : s.llm_response_ready = true
  · rw [if_pos hready]
    cases parse_response env s.llm_response with
    | none => exact ⟨rfl, rfl, rfl, rfl, hidle, rfl⟩
    | some content =>
      simp [hidle]
  · rw [if_neg hready]
    simp only [Bool.not_eq_true] at hready
    exact ⟨rfl, rfl, rfl, rfl, hidle, hready⟩

/-- C11 (Scenario C): when Stop is pressed before the pending result arrives,
the result, once handled, is dropped whatever the response says: the catalog,
the index and the list of submitted paths are as before the stop, and the batch
is idle. This holds from every state, in particular right after the first
submit of a batch. -/
theorem stop_discards_pending_result (env : Env) (s : State) (r : Option String) :
    (run env s [Event.stop, Event.complete r, Event.tick]).files = s.files ∧
    (run env s [Event.stop, Event.complete r, Event.tick]).batch_search_index =
      s.batch_search_index ∧
    (run env s [Event.stop, Event.complete r, Event.tick]).batch_search_active = false ∧
    (run env s [Event.stop, Event.complete r, Event.tick]).submitted = s.submitted ∧
    (run env s [Event.stop, Event.complete r, Event.tick]).llm_response_ready = false ∧
    (∀ files, (run env (initial files)
        [Event.start, Event.stop, Event.complete r, Event.tick]).files = files) := by
  have key : ∀ t : State,
      (run env t [Event.stop, Event.complete r, Event.tick]).files = t.files ∧
      (run env t [Event.stop, Event.complete r, Event.tick]).batch_search_index =
        t.batch_search_index ∧
      (run env t [Event.stop, Event.complete r, Event.tick]).batch_search_active = false ∧
      (run env t [Event.stop, Event.complete r, Event.tick]).submitted = t.submitted ∧
      (run env t [Event.stop, Event.complete r, Event.tick]).llm_response_ready = false := by
    intro t
    obtain ⟨f1, f2, f3, _, _, _, _⟩ := stop_frame t
    have hrun : run env t [Event.stop, Event.complete r, Event.tick] =
        onTick env (step env (stop t) (Event.complete r)) := rfl
    rw [hrun]
    have hmid : (step env (stop t) (Event.complete r)).batch_search_active = false ∧
        (step env (stop t) (Event.complete r)).files = t.files ∧
        (step env (stop t) (Event.complete r)).batch_search_index = t.batch_search_index ∧
        (step env (stop t) (Event.complete r)).submitted = t.submitted := by
      simp only [step]
      split
      · exact ⟨stop_active t, f1, f2, f3⟩
      · exact ⟨stop_active t, f1, f2, f3⟩
    obtain ⟨m1, m2, m3, m4⟩ := hmid
    obtain ⟨g1, g2, g3, _, g5, g6⟩ := onTick_idle env _ m1
    exact ⟨g1.trans m2, g2.trans m3, g5, g3.trans m4, g6⟩
  obtain ⟨k1, k2, k3, k4, k5⟩ := key s
  refine ⟨k1, k2, k3, k4, k5, ?_⟩
  intro files
  have hsplit : run env (initial files) [Event.start, Event.stop, Event.complete r, Event.tick] =
      run env (start env (initial files)) [Event.stop, Event.complete r, Event.tick] := rfl
  rw [hsplit, (key _).1]
  unfold start
  simp only [initial, Bool.not_false, if_true]
  split <;> simp

/-- The stop button on a running batch sets the stop flag and clears
`batch_search_active`; the index, the catalog, the slot and the running worker
are untouched. -/
theorem stop_running (s : State) (hrun : s.batch_search_active = true) :
    (stop s).stop_requested = true ∧
    (stop s).batch_search_active = false ∧
    (stop s).batch_search_index = s.batch_search_index ∧
    (stop s).files = s.files ∧
    (stop s).workers = s.workers ∧
    (stop s).llm_response = s.llm_response ∧
    (stop s).llm_response_ready = s.llm_response_ready := by
  simp [stop, hrun]

/-- C12, where the code departs from it: right after Stop is pressed on a
running batch, with the worker still running and no result handled yet,
`batch_search_active` is already false; the stop flag is set and the index and
the catalog are as before. -/
theorem stop_clears_active_at_once :
    (run sample_env (initial ["a.png"]) [Event.start]).batch_search_active = true ∧
    (run sample_env (initial ["a.png"]) [Event.start]).workers = 1 ∧
    (run sample_env (initial ["a.png"]) [Event.start, Event.stop]).batch_search_active = false ∧
    (run sample_env (initial ["a.png"]) [Event.start, Event.stop]).workers = 1 ∧
    (run sample_env (initial ["a.png"]) [Event.start, Event.stop]).stop_requested = true ∧
    (run sample_env (initial ["a.png"]) [Event.start, Event.stop]).batch_search_index = 0 ∧
    (run sample_env (initial ["a.png"]) [Event.start, Event.stop]).files = ["a.png"] := by
  decide

/-- C13, where the code departs from it: when the file of the first candidate
cannot be read, the search button leaves the batch running with no worker and
an empty slot, and the handler never changes that. -/
theorem unreadable_file_stalls_batch :
    (run unreadable_env (initial ["a.png", "b.png"]) [Event.start]).batch_search_active = true ∧
    (run unreadable_env (initial ["a.png", "b.png"]) [Event.start]).workers = 0 ∧
    (run unreadable_env (initial ["a.png", "b.png"]) [Event.start]).llm_response_ready = false ∧
    (run unreadable_env (initial ["a.png", "b.png"])
      [Event.start, Event.tick, Event.tick]).batch_search_active = true ∧
    (run unreadable_env (initial ["a.png", "b.png"])
      [Event.start, Event.tick, Event.tick]).submitted = ["a.png"] := by
  decide

/-! ## A reply without a message object -/

theorem parse_response_message_not_object (env : Env) (response : Option String) (root : Json)
    (hroot : response.bind env.json_loads = some root)
    (hmsg : message_not_object root = true) :
    parse_response env response = some none := by
  unfold message_not_object at hmsg
  simp only [Bool.and_eq_true, decide_eq_true_eq, Bool.not_eq_true'] at hmsg
  obtain ⟨⟨h1, h2⟩, h3⟩ := hmsg
  unfold parse_response
  rw [hroot]
  simp [h1, h2, h3]

/-- C14, as the code has it: a parsed response whose first choice has a
`message` that is missing or not an object is handled as a Keep: the catalog is
unchanged, the index moves to the next eligible position after the current one,
and that item is submitted unless the stop flag is set or the catalog is
exhausted. -/
theorem onTick_message_not_object (env : Env) (s : State) (root : Json)
    (hready : s.llm_response_ready = true)
    (hactive : s.batch_search_active = true)
    (hroot : s.llm_response.bind env.json_loads = some root)
    (hmsg : message_not_object root = true) :
    (onTick env s).files = s.files ∧
    (onTick env s).batch_search_index = skip_non_images s.files (s.batch_search_index + 1) ∧
    s.batch_search_index < (onTick env s).batch_search_index ∧
    (s.stop_requested = false → (onTick env s).batch_search_index < s.files.length →
      (onTick env s).batch_search_active = true ∧
      (onTick env s).submitted =
        s.submitted ++ [s.files.getD (onTick env s).batch_search_index ""]) ∧
    ((s.stop_requested = true ∨ s.files.length ≤ (onTick env s).batch_search_index) →
      (onTick env s).batch_search_active = false ∧
      (onTick env s).submitted = s.submitted) := by
  have hparse := parse_response_message_not_object env s.llm_response root hroot hmsg
  have hk : keep_of_content none = true := rfl
  rw [onTick_of_reply env s none hready hparse hactive, batch_step_keep env none s hk]
  simp only [dispatch_next_files, dispatch_next_index]
  refine ⟨trivial, trivial, ?_, ?_, ?_⟩
  · have := skip_non_images_ge s.files (s.batch_search_index + 1); omega
  · intro hstop hlt
    rw [dispatch_next_launch env
      { s with batch_search_index := skip_non_images s.files (s.batch_search_index + 1) }
      hstop hlt]
    simp [hactive]
  · intro h
    rw [dispatch_next_idle env
      { s with batch_search_index := skip_non_images s.files (s.batch_search_index + 1) } h]
    exact ⟨rfl, rfl⟩

theorem onTick_message_not_object_witness :
    (onTick bare_env (sample_running (some "body"))).files = ["a.png", "b.txt", "c.jpg"] ∧
    (onTick bare_env (sample_running (some "body"))).batch_search_index = 2 :=
  ⟨(onTick_message_not_object bare_env (sample_running (some "body"))
      (Json.object [("choices", Json.array [Json.object
        [("finish_reason", Json.string "stop")]])])
      (by decide) (by decide) rfl (by decide)).1,
   by decide⟩

/-- C14 fails as stated: after a reply whose first choice has no `message`, the
index has moved from 0 to 1 and the next item `b.png` has been submitted. -/
theorem onTick_message_not_object_counterexample :
    message_not_object (Json.object [("choices", Json.array [Json.object
        [("finish_reason", Json.string "stop")]])]) = true ∧
    (run bare_env (initial ["a.png", "b.png"]) [Event.start]).batch_search_index = 0 ∧
    (run bare_env (initial ["a.png", "b.png"])
      [Event.start, Event.complete (some "body"), Event.tick]).batch_search_index = 1 ∧
    (run bare_env (initial ["a.png", "b.png"])
      [Event.start, Event.complete (some "body"), Event.tick]).submitted =
        ["a.png", "b.png"] ∧
    (run bare_env (initial ["a.png", "b.png"])
      [Event.start, Event.complete (some "body"), Event.tick]).batch_search_active = true := by
  decide

/-! ## The verdict on the sample contents -/

theorem dropWhile_isspace_append (ws rest : List Char)
    (hws : ∀ c, c ∈ ws → isspace c = true) :
    (ws ++ rest).dropWhile isspace = rest.dropWhile isspace := by
  induction ws with
  | nil => rfl
  | cons w ws ih =>
    have hw : isspace w = true := hws w (List.mem_cons_self _ _)
    simp only [List.cons_append, List.dropWhile_cons, hw, if_true]
    exact ih (fun c hc => hws c (List.mem_cons_of_mem _ hc))

/-- C16: the verdict is Keep for `Yes, it does`, Drop for `no way`, Keep for the
empty content, Drop for `no` in each of its four spellings, Keep for `maybe`,
and whitespace put before a content does not change its verdict. -/
theorem keep_of_content_samples (ws : List Char) (content : String)
    (hws : ∀ c, c ∈ ws → isspace c = true) :
    keep_of_content (some "Yes, it does") = true ∧
    keep_of_content (some "no way") = false ∧
    keep_of_content (some "") = true ∧
    keep_of_content (some "NO") = false ∧
    keep_of_content (some "No") = false ∧
    keep_of_content (some "nO") = false ∧
    keep_of_content (some "no") = false ∧
    keep_of_content (some "maybe") = true ∧
    keep_of_content (some (String.mk (ws ++ content.toList))) =
      keep_of_content (some content) := by
  refine ⟨by decide, by decide, by decide, by decide, by decide, by decide, by decide,
    by decide, ?_⟩
  unfold keep_of_content
  simp only [String.toList, dropWhile_isspace_append ws content.data hws]

theorem keep_of_content_samples_witness :
    keep_of_content (some " \t\n no way") = false ∧
    keep_of_content (some "  Yes, it does") = true :=
  ⟨((keep_of_content_samples [' ', '\t', '\n', ' '] "no way" (by decide)).2.2.2.2.2.2.2.2).trans
      (keep_of_content_samples [] "" (by decide)).2.1,
   by decide⟩

/-! ## The sort comparator -/

theorem char_rank_inj (x y : Nat) (h : char_rank x = char_rank y) : x = y := by
  unfold char_rank at h
  split_ifs at h <;> omega

theorem char_rank_nul : char_rank 0 = 1000 := by decide

theorem cmp_strings_nil_nil : cmp_strings [] [] = 0 := by decide

theorem cmp_strings_nil_cons (y : Nat) (ys : List Nat) :
    cmp_strings [] (y :: ys) = 1000 - char_rank y := by
  simp [cmp_strings, head_byte, char_rank_nul]

theorem cmp_strings_cons_nil (x : Nat) (xs : List Nat) :
    cmp_strings (x :: xs) [] = char_rank x - 1000 := by
  simp [cmp_strings, head_byte, char_rank_nul]

theorem cmp_strings_cons_cons (x y : Nat) (xs ys : List Nat) (hx : x ≠ 0) (hy : y ≠ 0) :
    cmp_strings (x :: xs) (y :: ys) =
      if char_rank x = char_rank y then cmp_strings xs ys
      else char_rank x - char_rank y := by
  simp only [cmp_strings, hx, hy, ne_eq, not_false_eq_true, and_self, if_true, ite_not]

theorem char_rank_ne_nul (x : Nat) (hx : x ≠ 0) : char_rank x ≠ 1000 := by
  intro h
  rw [← char_rank_nul] at h
  exact hx (char_rank_inj x 0 h)

theorem cmp_strings_eq_zero_iff (a : List Nat) :
    ∀ b : List Nat, (∀ x, x ∈ a → x ≠ 0) → (∀ x, x ∈ b → x ≠ 0) →
      (cmp_strings a b = 0 ↔ a = b) := by
  induction a with
  | nil =>
    intro b _ hb
    cases b with
    | nil => simp [cmp_strings_nil_nil]
    | cons y ys =>
      rw [cmp_strings_nil_cons]
      have := char_rank_ne_nul y (hb y (List.mem_cons_self _ _))
      constructor
      · intro h; omega
      · intro h; exact List.noConfusion h
  | cons x xs ih =>
    intro b ha hb
    have hx := ha x (List.mem_cons_self _ _)
    cases b with
    | nil =>
      rw [cmp_strings_cons_nil]
      have := char_rank_ne_nul x hx
      constructor
      · intro h; omega
      · intro h; exact List.noConfusion h
    | cons y ys =>
      have hy := hb y (List.mem_cons_self _ _)
      rw [cmp_strings_cons_cons x y xs ys hx hy]
      by_cases hr : char_rank x = char_rank y
      · rw [if_pos hr]
        have hxy := char_rank_inj x y hr
        rw [ih ys (fun z hz => ha z (List.mem_cons_of_mem _ hz))
          (fun z hz => hb z (List.mem_cons_of_mem _ hz))]
        constructor
        · intro h; rw [hxy, h]
        · intro h; injection h
      · rw [if_neg hr]
        constructor
        · intro h; omega
        · intro h
          injection h with h1 _
          exact absurd (congrArg char_rank h1) hr

theorem cmp_strings_neg (a : List Nat) :
    ∀ b : List Nat, (∀ x, x ∈ a → x ≠ 0) → (∀ x, x ∈ b → x ≠ 0) →
      cmp_strings a b = -cmp_strings b a := by
  induction a with
  | nil =>
    intro b _ _
    cases b with
    | nil => simp [cmp_strings_nil_nil]
    | cons y ys => rw [cmp_strings_nil_cons, cmp_strings_cons_nil]; omega
  | cons x xs ih =>
    intro b ha hb
    have hx := ha x (List.mem_cons_self _ _)
    cases b with
    | nil => rw [cmp_strings_nil_cons, cmp_strings_cons_nil]; omega
    | cons y ys =>
      have hy := hb y (List.mem_cons_self _ _)
      rw [cmp_strings_cons_cons x y xs ys hx hy, cmp_strings_cons_cons y x ys xs hy hx]
      by_cases hr : char_rank x = char_rank y
      · rw [if_pos hr, if_pos hr.symm]
        exact ih ys (fun z hz => ha z (List.mem_cons_of_mem _ hz))
          (fun z hz => hb z (List.mem_cons_of_mem _ hz))
      · rw [if_neg hr, if_neg (fun h => hr h.symm)]
        omega

theorem cmp_strings_trans (a : List Nat) :
    ∀ b c : List Nat, (∀ x, x ∈ a → x ≠ 0) → (∀ x, x ∈ b → x ≠ 0) → (∀ x, x ∈ c → x ≠ 0) →
      cmp_strings a b < 0 → cmp_strings b c < 0 → cmp_strings a c < 0 := by
  induction a with
  | nil =>
    intro b c _ hb hc hab hbc
    cases b with
    | nil => rw [cmp_strings_nil_nil] at hab; omega
    | cons y ys =>
      have hy := hb y (List.mem_cons_self _ _)
      cases c with
      | nil =>
        rw [cmp_strings_nil_cons] at hab
        rw [cmp_strings_cons_nil] at hbc
        omega
      | cons z zs =>
        have hz := hc z (List.mem_cons_self _ _)
        rw [cmp_strings_nil_cons] at hab ⊢
        rw [cmp_strings_cons_cons y z ys zs hy hz] at hbc
        by_cases hr : char_rank y = char_rank z
        · rw [← hr]; exact hab
        · rw [if_neg hr] at hbc; omega
  | cons x xs ih =>
    intro b c ha hb hc hab hbc
    have hx := ha x (List.mem_cons_self _ _)
    cases b with
    | nil =>
      cases c with
      | nil => rw [cmp_strings_nil_nil] at hbc; omega
      | cons z zs =>
        have hz := hc z (List.mem_cons_self _ _)
        rw [cmp_strings_cons_nil] at hab
        rw [cmp_strings_nil_cons] at hbc
        rw [cmp_strings_cons_cons x z xs zs hx hz]
        by_cases hr : char_rank x = char_rank z
        · omega
        · rw [if_neg hr]; omega
    | cons y ys =>
      have hy := hb y (List.mem_cons_self _ _)
      rw [cmp_strings_cons_cons x y xs ys hx hy] at hab
      cases c with
      | nil =>
        rw [cmp_strings_cons_nil] at hbc ⊢
        by_cases hr : char_rank x = char_rank y
        · rw [hr]; exact hbc
        · rw [if_neg hr] at hab; omega
      | cons z zs =>
        have hz := hc z (List.mem_cons_self _ _)
        rw [cmp_strings_cons_cons y z ys zs hy hz] at hbc
        rw [cmp_strings_cons_cons x z xs zs hx hz]
        by_cases h1 : char_rank x = char_rank y
        · rw [if_pos h1] at hab
          by_cases h2 : char_rank y = char_rank z
          · rw [if_pos h2] at hbc
            rw [if_pos (h1.trans h2)]
            exact ih ys zs (fun w hw => ha w (List.mem_cons_of_mem _ hw))
              (fun w hw => hb w (List.mem_cons_of_mem _ hw))
              (fun w hw => hc w (List.mem_cons_of_mem _ hw)) hab hbc
          · rw [if_neg h2] at hbc
            rw [if_neg (fun h => h2 (h1.symm.trans h)), h1]
            exact hbc
        · rw [if_neg h1] at hab
          by_cases h2 : char_rank y = char_rank z
          · rw [if_neg (fun h => h1 (h.trans h2.symm)), ← h2]
            exact hab
          · rw [if_neg h2] at hbc
            by_cases h3 : char_rank x = char_rank z
            · omega
            · rw [if_neg h3]; omega

/-- C19: on NUL-terminated strings (byte lists without a zero byte)
`cmp_strings` is a total-order comparator: it returns 0 exactly on equal
strings, `cmp(a,b)` and `cmp(b,a)` have opposite signs, and `cmp(a,b) < 0` with
`cmp(b,c) < 0` gives `cmp(a,c) < 0`. -/
theorem cmp_strings_total_order (a b c : List Nat)
    (ha : ∀ x, x ∈ a → x ≠ 0) (hb : ∀ x, x ∈ b → x ≠ 0) (hc : ∀ x, x ∈ c → x ≠ 0) :
    (cmp_strings a b = 0 ↔ a = b) ∧
    Int.sign (cmp_strings a b) = -Int.sign (cmp_strings b a) ∧
    (cmp_strings a b < 0 → cmp_strings b c < 0 → cmp_strings a c < 0) := by
  refine ⟨cmp_strings_eq_zero_iff a b ha hb, ?_, cmp_strings_trans a b c ha hb hc⟩
  rw [cmp_strings_neg a b ha hb, Int.sign_neg]

theorem cmp_strings_total_order_witness :
    Int.sign (cmp_strings [97, 46, 112] [97, 98]) = -Int.sign (cmp_strings [97, 98] [97, 46, 112]) ∧
    cmp_strings [49, 48] [97] = -9 ∧
    cmp_strings [97] [97, 98] = 988 :=
  ⟨(cmp_strings_total_order [97, 46, 112] [97, 98] [65] (by decide) (by decide) (by decide)).2.1,
   by decide, by decide⟩

/-! ## The eligibility test -/

theorem tolower_toNat_ne_zero (c : Char) (hc : c.toNat ≠ 0) : (tolower c).toNat ≠ 0 := by
  unfold tolower
  split
  · rename_i h
    generalize c.toNat = n at h
    obtain ⟨h1, h2⟩ := h
    interval_cases n <;> decide
  · exact hc

theorem strncasecmp_eq_zero_iff (n : Nat) :
    ∀ a b : List Char, (∀ c, c ∈ a → c.toNat ≠ 0) → (∀ c, c ∈ b → c.toNat ≠ 0) →
      a.length < n → b.length < n →
      (strncasecmp a b n = 0 ↔ a.map tolower = b.map tolower) := by
  induction n with
  | zero => intro a b _ _ h; omega
  | succ n ih =>
    intro a b ha hb hla hlb
    match a, b, ha, hb, hla, hlb with
    | [], [], _, _, _, _ => simp [strncasecmp]
    | [], y :: ys, _, hb, _, _ =>
      have hy := tolower_toNat_ne_zero y (hb y (List.mem_cons_self _ _))
      have hunfold : strncasecmp [] (y :: ys) (n + 1) = -((tolower y).toNat : Int) := rfl
      rw [hunfold]
      constructor
      · intro h; omega
      · intro h; exact List.noConfusion h
    | x :: xs, [], ha, _, _, _ =>
      have hx := tolower_toNat_ne_zero x (ha x (List.mem_cons_self _ _))
      have hunfold : strncasecmp (x :: xs) [] (n + 1) = ((tolower x).toNat : Int) := rfl
      rw [hunfold]
      constructor
      · intro h; omega
      · intro h; exact List.noConfusion h
    | x :: xs, y :: ys, ha, hb, hla, hlb =>
      rw [strncasecmp_cons_eq_zero,
        ih xs ys (fun c hc => ha c (List.mem_cons_of_mem _ hc))
          (fun c hc => hb c (List.mem_cons_of_mem _ hc))
          (by simp at hla; omega) (by simp at hlb; omega)]
      simp

theorem strcasecmp_eq_zero_iff (a b : List Char)
    (ha : ∀ c, c ∈ a → c.toNat ≠ 0) (hb : ∀ c, c ∈ b → c.toNat ≠ 0) :
    strcasecmp a b = 0 ↔ a.map tolower = b.map tolower := by
  unfold strcasecmp
  exact strncasecmp_eq_zero_iff _ a b ha hb (by omega) (by omega)

theorem after_last_append_cons (c : Char) (pre post : List Char) (h : c ∉ post) :
    after_last c (pre ++ c :: post) = post := by
  unfold after_last
  have hall : ∀ a, a ∈ post.reverse → (fun x => x != c) a = true := by
    intro a ha
    have : a ≠ c := fun e => h (e ▸ List.mem_reverse.1 ha)
    simpa using this
  rw [List.reverse_append, List.reverse_cons, List.append_assoc,
    List.takeWhile_append_of_pos hall]
  simp

theorem after_last_of_not_mem (c : Char) (s : List Char) (h : c ∉ s) :
    after_last c s = s := by
  unfold after_last
  have hall : ∀ a, a ∈ s.reverse → (fun x => x != c) a = true := by
    intro a ha
    have : a ≠ c := fun e => h (e ▸ List.mem_reverse.1 ha)
    simpa using this
  rw [List.takeWhile_eq_self_iff.2 hall, List.reverse_reverse]

theorem after_last_append_cons_other (d c : Char) (pre post : List Char)
    (hdc : c ≠ d) (h : d ∉ post) :
    after_last d (pre ++ c :: post) = after_last d pre ++ c :: post := by
  unfold after_last
  have hall : ∀ a, a ∈ post.reverse ++ [c] → (fun x => x != d) a = true := by
    intro a ha
    rcases List.mem_append.1 ha with h1 | h1
    · have : a ≠ d := fun e => h (e ▸ List.mem_reverse.1 h1)
      simpa using this
    · have : a = c := by simpa using h1
      subst this
      simpa using hdc
  rw [List.reverse_append, List.reverse_cons, List.takeWhile_append_of_pos hall]
  simp

theorem mem_of_mem_after_last (c x : Char) (s : List Char) (h : x ∈ after_last c s) :
    x ∈ s := by
  unfold after_last at h
  exact List.mem_reverse.1 ((List.takeWhile_sublist _).subset (List.mem_reverse.1 h))

theorem exists_last_occurrence (c : Char) (s : List Char) (h : c ∈ s) :
    ∃ pre post, s = pre ++ c :: post ∧ c ∉ post := by
  obtain ⟨as, bs, heq, hnot⟩ := List.eq_append_cons_of_mem (List.mem_reverse.2 h)
  refine ⟨bs.reverse, as.reverse, ?_, fun hmem => hnot (List.mem_reverse.1 hmem)⟩
  have := congrArg List.reverse heq
  simpa using this

theorem strrchr_of_not_mem (c : Char) (s : List Char) (h : c ∉ s) : strrchr s c = none := by
  induction s with
  | nil => rfl
  | cons x xs ih =>
    have hx : ¬ x = c := fun e => h (e ▸ List.mem_cons_self _ _)
    have hxs : c ∉ xs := fun hm => h (List.mem_cons_of_mem _ hm)
    simp [strrchr, ih hxs, hx]

theorem strrchr_append_cons (c : Char) (pre post : List Char) (h : c ∉ post) :
    strrchr (pre ++ c :: post) c = some (c :: post) := by
  induction pre with
  | nil => simp [strrchr, strrchr_of_not_mem c post h]
  | cons x xs ih => simp [strrchr, ih]

theorem has_image_extension_of_ext (path : String) (post : List Char)
    (hs : strrchr path.toList '.' = some ('.' :: post))
    (hnul : ∀ c, c ∈ post → c.toNat ≠ 0) :
    has_image_extension path =
      image_extensions.any (fun e => eq_ignoring_case post e) := by
  have h1 := strcasecmp_eq_zero_iff post "png".toList hnul (by decide)
  have h2 := strcasecmp_eq_zero_iff post "jpg".toList hnul (by decide)
  have h3 := strcasecmp_eq_zero_iff post "jpeg".toList hnul (by decide)
  have h4 := strcasecmp_eq_zero_iff post "gif".toList hnul (by decide)
  have h5 := strcasecmp_eq_zero_iff post "bmp".toList hnul (by decide)
  have h6 := strcasecmp_eq_zero_iff post "webp".toList hnul (by decide)
  unfold has_image_extension
  rw [hs]
  simp only [List.drop, h1, h2, h3, h4, h5, h6, image_extensions, List.any, eq_ignoring_case,
    Bool.or_false]
  split_ifs <;> simp_all

theorem no_image_extension_with_slash (post : List Char) (h : '/' ∈ post) :
    image_extensions.any (fun e => eq_ignoring_case post e) = false := by
  have hmem : '/' ∈ post.map tolower := by
    have : tolower '/' = '/' := by decide
    rw [← this]
    exact List.mem_map_of_mem tolower h
  simp only [image_extensions, List.any, eq_ignoring_case, Bool.or_false, Bool.or_eq_false_iff,
    beq_eq_false_iff_ne, ne_eq]
  refine ⟨?_, ?_, ?_, ?_, ?_, ?_⟩ <;>
  · intro heq
    rw [heq] at hmem
    exact absurd hmem (by decide)

/-- C15: for a path that is a C string (no NUL character), `has_image_extension`
holds exactly when the file name, the final `/`-separated component, contains a
dot and the text after its last dot is, ignoring case, one of png, jpg, jpeg,
gif, bmp, webp; a path whose file name has no dot is never eligible, whatever
dots its directories have. -/
theorem has_image_extension_iff_file_name (path : String)
    (hnul : ∀ c, c ∈ path.toList → c.toNat ≠ 0) :
    has_image_extension path = is_image_file_name path ∧
    ('.' ∉ file_name path → has_image_extension path = false) := by
  have main : has_image_extension path = is_image_file_name path := by
    by_cases hdot : '.' ∈ path.toList
    · obtain ⟨pre, post, heq, hpost⟩ := exists_last_occurrence '.' path.toList hdot
      have hs : strrchr path.toList '.' = some ('.' :: post) := by
        rw [heq]; exact strrchr_append_cons '.' pre post hpost
      have hpnul : ∀ c, c ∈ post → c.toNat ≠ 0 := by
        intro c hc
        apply hnul c
        rw [heq]
        exact List.mem_append_right _ (List.mem_cons_of_mem _ hc)
      rw [has_image_extension_of_ext path post hs hpnul]
      unfold is_image_file_name file_name
      by_cases hslash : '/' ∈ post
      · obtain ⟨p1, p2, hp, hp2⟩ := exists_last_occurrence '/' post hslash
        have hname : after_last '/' path.toList = p2 := by
          rw [heq, hp]
          have : pre ++ '.' :: (p1 ++ '/' :: p2) = (pre ++ '.' :: p1) ++ '/' :: p2 := by simp
          rw [this]
          exact after_last_append_cons '/' _ p2 hp2
        have hnodot : '.' ∉ p2 := by
          intro hm
          apply hpost
          rw [hp]
          exact List.mem_append_right _ (List.mem_cons_of_mem _ hm)
        rw [hname, no_image_extension_with_slash post hslash]
        simp [hnodot]
      · have hname : after_last '/' path.toList = after_last '/' pre ++ '.' :: post := by
          rw [heq]
          exact after_last_append_cons_other '/' '.' pre post (by decide) hslash
        rw [hname, after_last_append_cons '.' _ post hpost]
        simp
    · have hs : strrchr path.toList '.' = none := strrchr_of_not_mem '.' _ hdot
      have hname : '.' ∉ file_name path :=
        fun hm => hdot (mem_of_mem_after_last '/' '.' _ hm)
      unfold has_image_extension is_image_file_name
      rw [hs]
      simp [hname]
  refine ⟨main, ?_⟩
  intro hname
  rw [main]
  unfold is_image_file_name
  simp [hname]

theorem has_image_extension_iff_file_name_witness :
    has_image_extension "photos.v2/cat.JPeG" = true ∧
    has_image_extension "photos.png/notes" = false :=
  ⟨(has_image_extension_iff_file_name "photos.v2/cat.JPeG" (by decide)).1.trans (by decide),
   (has_image_extension_iff_file_name "photos.png/notes" (by decide)).2 (by decide)⟩

/-! ## The Base64 encoder -/

theorem b64_triple_eq (a b c : Nat) (hb : b < 256) (hc : c < 256) :
    (a <<< 16) ||| (b <<< 8) ||| c = a * 65536 + b * 256 + c := by
  have h1 : b <<< 8 ||| c = 256 * b + c := by
    rw [Nat.shiftLeft_eq, Nat.mul_comm b (2 ^ 8)]
    exact (Nat.mul_add_lt_is_or (i := 8) (by omega) b).symm
  have h2 : a <<< 16 ||| (256 * b + c) = 65536 * a + (256 * b + c) := by
    rw [Nat.shiftLeft_eq, Nat.mul_comm a (2 ^ 16)]
    exact (Nat.mul_add_lt_is_or (i := 16) (by omega) a).symm
  rw [Nat.lor_assoc, h1, h2]
  omega

theorem b64_and_63 (x : Nat) : x &&& 0x3F = x % 64 :=
  Nat.and_pow_two_sub_one_eq_mod x 6

theorem b64_sextets (a b c : Nat) (ha : a < 256) (hb : b < 256) (hc : c < 256) :
    b64_quad a b c =
      [b64_encoding_table.getD (a / 4) (Char.ofNat 0),
       b64_encoding_table.getD ((a % 4) * 16 + b / 16) (Char.ofNat 0),
       b64_encoding_table.getD ((b % 16) * 4 + c / 64) (Char.ofNat 0),
       b64_encoding_table.getD (c % 64) (Char.ofNat 0)] := by
  unfold b64_quad
  simp only [b64_triple_eq a b c hb hc, b64_and_63, Nat.shiftRight_eq_div_pow]
  have e1 : (a * 65536 + b * 256 + c) / 2 ^ 18 % 64 = a / 4 := by omega
  have e2 : (a * 65536 + b * 256 + c) / 2 ^ 12 % 64 = (a % 4) * 16 + b / 16 := by omega
  have e3 : (a * 65536 + b * 256 + c) / 2 ^ 6 % 64 = (b % 16) * 4 + c / 64 := by omega
  have e4 : (a * 65536 + b * 256 + c) % 64 = c % 64 := by omega
  rw [e1, e2, e3, e4]

theorem b64_value_table (s : Nat) (hs : s < 64) :
    b64_value (b64_encoding_table.getD s (Char.ofNat 0)) = some s := by
  interval_cases s <;> decide

theorem b64_table_mem (s : Nat) (hs : s < 64) :
    b64_encoding_table.getD s (Char.ofNat 0) ∈ b64_encoding_table := by
  interval_cases s <;> decide

theorem b64_table_ne_pad (s : Nat) (hs : s < 64) :
    b64_encoding_table.getD s (Char.ofNat 0) ≠ '=' := by
  interval_cases s <;> decide

theorem drop_eq_getD_cons (data : List Nat) (i : Nat) (h : i < data.length) :
    data.drop i = data.getD i 0 :: data.drop (i + 1) := by
  rw [List.drop_eq_getElem_cons h, List.getD_eq_getElem?_getD, List.getElem?_eq_getElem h]
  rfl

theorem b64_encode_loop_eq (data : List Nat) (fuel : Nat) :
    ∀ (i : Nat) (out : List Char), data.length ≤ i + fuel →
      b64_encode_loop data fuel i out = out ++ b64_raw_groups (data.drop i) := by
  induction fuel with
  | zero =>
    intro i out h
    rw [List.drop_eq_nil_of_le (by omega)]
    simp [b64_encode_loop, b64_raw_groups]
  | succ fuel ih =>
    intro i out h
    unfold b64_encode_loop
    by_cases h0 : i < data.length
    · rw [if_pos h0]
      simp only [h0, if_true]
      rw [drop_eq_getD_cons data i h0]
      by_cases h1 : i + 1 < data.length
      · simp only [h1, if_true]
        rw [drop_eq_getD_cons data (i + 1) h1]
        by_cases h2 : i + 1 + 1 < data.length
        · simp only [h2, if_true]
          rw [drop_eq_getD_cons data (i + 1 + 1) h2, ih _ _ (by omega)]
          simp [b64_raw_groups]
        · simp only [h2, if_false]
          rw [ih _ _ (by omega), List.drop_eq_nil_of_le (by omega)]
          simp [b64_raw_groups]
      · simp only [h1, if_false]
        rw [ih _ _ (by omega), List.drop_eq_nil_of_le (by omega)]
        simp [b64_raw_groups]
    · rw [if_neg h0, List.drop_eq_nil_of_le (by omega)]
      simp [b64_raw_groups]

theorem b64_quad_length (a b c : Nat) : (b64_quad a b c).length = 4 := rfl

theorem b64_raw_groups_length (data : List Nat) :
    (b64_raw_groups data).length = 4 * ((data.length + 2) / 3) := by
  induction data using b64_raw_groups.induct with
  | case1 => rfl
  | case2 a => simp [b64_raw_groups, b64_quad_length]
  | case3 a b => simp [b64_raw_groups, b64_quad_length]
  | case4 a b c rest ih =>
    simp only [b64_raw_groups, List.length_append, b64_quad_length, ih, List.length_cons]
    omega

theorem b64_pad_raw_groups (data : List Nat) :
    (List.range (b64_mod_table.getD (data.length % 3) 0)).foldl
        (fun enc i => enc.set (4 * ((data.length + 2) / 3) - 1 - i) '=')
        (b64_raw_groups data) = b64_groups data := by
  induction data using b64_raw_groups.induct with
  | case1 => rfl
  | case2 a =>
    simp [b64_raw_groups, b64_groups, b64_quad, b64_mod_table, List.range_succ]
  | case3 a b =>
    simp [b64_raw_groups, b64_groups, b64_quad, b64_mod_table, List.range_succ]
  | case4 a b c rest ih =>
    have hlen := b64_raw_groups_length rest
    have hmod : (a :: b :: c :: rest).length % 3 = rest.length % 3 := by
      simp only [List.length_cons]; omega
    have hout : 4 * (((a :: b :: c :: rest).length + 2) / 3) =
        4 + 4 * ((rest.length + 2) / 3) := by
      simp only [List.length_cons]; omega
    rw [hmod, hout]
    simp only [b64_raw_groups, b64_groups]
    rw [← ih]
    have h3 : rest.length % 3 = 0 ∨ rest.length % 3 = 1 ∨ rest.length % 3 = 2 := by omega
    rcases h3 with h | h | h
    · rw [h]; rfl
    · rw [h]
      have hpos : 4 ≤ 4 * ((rest.length + 2) / 3) := by omega
      simp only [b64_mod_table, List.getD_cons_succ, List.getD_cons_zero, List.range_succ,
        List.range_zero, List.nil_append, List.cons_append, List.foldl_cons, List.foldl_nil,
        Nat.sub_zero]
      rw [List.set_append, if_neg (by rw [b64_quad_length]; omega), b64_quad_length,
        List.set_append, if_neg (by rw [b64_quad_length]; omega), b64_quad_length]
      congr 2
      · congr 1; omega
      · omega
    · rw [h]
      have hpos : 4 ≤ 4 * ((rest.length + 2) / 3) := by omega
      simp only [b64_mod_table, List.getD_cons_succ, List.getD_cons_zero, List.range_succ,
        List.range_zero, List.nil_append, List.foldl_cons, List.foldl_nil, Nat.sub_zero]
      rw [List.set_append, if_neg (by rw [b64_quad_length]; omega), b64_quad_length]
      congr 2
      omega

theorem base64_encode_eq_groups (data : List Nat) :
    base64_encode data = b64_groups data := by
  have hloop : b64_encode_loop data data.length 0 [] = b64_raw_groups data := by
    rw [b64_encode_loop_eq data data.length 0 [] (by omega)]
    simp
  unfold base64_encode
  simp only [hloop]
  exact b64_pad_raw_groups data

theorem b64_groups_length (data : List Nat) :
    (b64_groups data).length = 4 * ((data.length + 2) / 3) := by
  induction data using b64_groups.induct with
  | case1 => rfl
  | case2 a => simp [b64_groups, b64_quad]
  | case3 a b => simp [b64_groups, b64_quad]
  | case4 a b c rest ih =>
    simp only [b64_groups, List.length_append, b64_quad_length, ih, List.length_cons]
    omega

theorem b64_groups_padding (data : List Nat) (hbytes : ∀ b, b ∈ data → b < 256) :
    ∃ body, b64_groups data = body ++ List.replicate ((3 - data.length % 3) % 3) '=' ∧
      ∀ c, c ∈ body → c ∈ b64_encoding_table := by
  induction data using b64_groups.induct with
  | case1 => exact ⟨[], rfl, fun c hc => absurd hc (List.not_mem_nil c)⟩
  | case2 a =>
    have ha : a < 256 := hbytes a (by simp)
    refine ⟨(b64_quad a 0 0).take 2, rfl, ?_⟩
    rw [b64_sextets a 0 0 ha (by omega) (by omega)]
    intro c hc
    simp only [List.take, List.mem_cons, List.mem_singleton, List.not_mem_nil, or_false] at hc
    rcases hc with h | h <;> rw [h] <;> exact b64_table_mem _ (by omega)
  | case3 a b =>
    have ha : a < 256 := hbytes a (by simp)
    have hb : b < 256 := hbytes b (by simp)
    refine ⟨(b64_quad a b 0).take 3, rfl, ?_⟩
    rw [b64_sextets a b 0 ha hb (by omega)]
    intro c hc
    simp only [List.take, List.mem_cons, List.mem_singleton, List.not_mem_nil, or_false] at hc
    rcases hc with h | h | h <;> rw [h] <;> exact b64_table_mem _ (by omega)
  | case4 a b c rest ih =>
    have ha : a < 256 := hbytes a (by simp)
    have hb : b < 256 := hbytes b (by simp)
    have hc : c < 256 := hbytes c (by simp)
    obtain ⟨body, hbody, hmem⟩ := ih (fun x hx => hbytes x (by simp [hx]))
    have hmod : (a :: b :: c :: rest).length % 3 = rest.length % 3 := by
      simp only [List.length_cons]; omega
    refine ⟨b64_quad a b c ++ body, ?_, ?_⟩
    · rw [hmod]
      simp only [b64_groups, hbody, List.append_assoc]
    · intro x hx
      rcases List.mem_append.1 hx with h | h
      · rw [b64_sextets a b c ha hb hc] at h
        simp only [List.mem_cons, List.mem_singleton, List.not_mem_nil, or_false] at h
        rcases h with h | h | h | h <;> rw [h] <;> exact b64_table_mem _ (by omega)
      · exact hmem x h

theorem b64_groups_one (a : Nat) (ha : a < 256) :
    b64_groups [a] =
      [b64_encoding_table.getD (a / 4) (Char.ofNat 0),
       b64_encoding_table.getD ((a % 4) * 16) (Char.ofNat 0), '=', '='] := by
  have h : b64_groups [a] = (b64_quad a 0 0).take 2 ++ ['=', '='] := rfl
  rw [h, b64_sextets a 0 0 ha (by omega) (by omega)]
  simp

theorem b64_groups_two (a b : Nat) (ha : a < 256) (hb : b < 256) :
    b64_groups [a, b] =
      [b64_encoding_table.getD (a / 4) (Char.ofNat 0),
       b64_encoding_table.getD ((a % 4) * 16 + b / 16) (Char.ofNat 0),
       b64_encoding_table.getD ((b % 16) * 4) (Char.ofNat 0), '='] := by
  have h : b64_groups [a, b] = (b64_quad a b 0).take 3 ++ ['='] := rfl
  rw [h, b64_sextets a b 0 ha hb (by omega)]
  simp

theorem b64_groups_three (a b c : Nat) (rest : List Nat)
    (ha : a < 256) (hb : b < 256) (hc : c < 256) :
    b64_groups (a :: b :: c :: rest) =
      b64_encoding_table.getD (a / 4) (Char.ofNat 0) ::
      b64_encoding_table.getD ((a % 4) * 16 + b / 16) (Char.ofNat 0) ::
      b64_encoding_table.getD ((b % 16) * 4 + c / 64) (Char.ofNat 0) ::
      b64_encoding_table.getD (c % 64) (Char.ofNat 0) :: b64_groups rest := by
  have h : b64_groups (a :: b :: c :: rest) = b64_quad a b c ++ b64_groups rest := rfl
  rw [h, b64_sextets a b c ha hb hc]
  rfl

theorem base64_decode_two_pads (c1 c2 : Char) (v1 v2 : Nat)
    (h1 : b64_value c1 = some v1) (h2 : b64_value c2 = some v2) (hz : v2 % 16 = 0) :
    base64_decode [c1, c2, '=', '='] = some [v1 * 4 + v2 / 16] := by
  simp [base64_decode, h1, h2, hz]

theorem base64_decode_one_pad (c1 c2 c3 : Char) (v1 v2 v3 : Nat)
    (h1 : b64_value c1 = some v1) (h2 : b64_value c2 = some v2)
    (h3 : b64_value c3 = some v3) (hne : c3 ≠ '=') (hz : v3 % 4 = 0) :
    base64_decode [c1, c2, c3, '='] =
      some [v1 * 4 + v2 / 16, (v2 % 16) * 16 + v3 / 4] := by
  simp [base64_decode, h1, h2, h3, hne, hz]

theorem base64_decode_full (c1 c2 c3 c4 : Char) (rest : List Char) (v1 v2 v3 v4 : Nat)
    (h1 : b64_value c1 = some v1) (h2 : b64_value c2 = some v2)
    (h3 : b64_value c3 = some v3) (h4 : b64_value c4 = some v4) (hne : c4 ≠ '=') :
    base64_decode (c1 :: c2 :: c3 :: c4 :: rest) =
      (base64_decode rest).map
        (fun tl => (v1 * 4 + v2 / 16) :: ((v2 % 16) * 16 + v3 / 4) ::
          ((v3 % 4) * 64 + v4) :: tl) := by
  simp [base64_decode, h1, h2, h3, h4, hne]

theorem base64_decode_groups (data : List Nat) (hbytes : ∀ b, b ∈ data → b < 256) :
    base64_decode (b64_groups data) = some data := by
  induction data using b64_groups.induct with
  | case1 => rfl
  | case2 a =>
    have ha : a < 256 := hbytes a (by simp)
    rw [b64_groups_one a ha,
      base64_decode_two_pads _ _ _ _ (b64_value_table (a / 4) (by omega))
        (b64_value_table ((a % 4) * 16) (by omega)) (by omega)]
    have e : a / 4 * 4 + a % 4 * 16 / 16 = a := by omega
    rw [e]
  | case3 a b =>
    have ha : a < 256 := hbytes a (by simp)
    have hb : b < 256 := hbytes b (by simp)
    rw [b64_groups_two a b ha hb,
      base64_decode_one_pad _ _ _ _ _ _ (b64_value_table (a / 4) (by omega))
        (b64_value_table ((a % 4) * 16 + b / 16) (by omega))
        (b64_value_table ((b % 16) * 4) (by omega))
        (b64_table_ne_pad ((b % 16) * 4) (by omega)) (by omega)]
    have e1 : a / 4 * 4 + (a % 4 * 16 + b / 16) / 16 = a := by omega
    have e2 : (a % 4 * 16 + b / 16) % 16 * 16 + b % 16 * 4 / 4 = b := by omega
    rw [e1, e2]
  | case4 a b c rest ih =>
    have ha : a < 256 := hbytes a (by simp)
    have hb : b < 256 := hbytes b (by simp)
    have hc : c < 256 := hbytes c (by simp)
    have hrest := ih (fun x hx => hbytes x (by simp [hx]))
    rw [b64_groups_three a b c rest ha hb hc,
      base64_decode_full _ _ _ _ _ _ _ _ _ (b64_value_table (a / 4) (by omega))
        (b64_value_table ((a % 4) * 16 + b / 16) (by omega))
        (b64_value_table ((b % 16) * 4 + c / 64) (by omega))
        (b64_value_table (c % 64) (by omega))
        (b64_table_ne_pad (c % 64) (by omega)), hrest]
    have e1 : a / 4 * 4 + (a % 4 * 16 + b / 16) / 16 = a := by omega
    have e2 : (a % 4 * 16 + b / 16) % 16 * 16 + (b % 16 * 4 + c / 64) / 4 = b := by omega
    have e3 : (b % 16 * 4 + c / 64) % 4 * 64 + c % 64 = c := by omega
    simp only [Option.map_some', e1, e2, e3]

/-- C18: for every sequence of bytes, `base64_encode` returns the padded Base64
text of RFC 4648: its length is `4 * ceil(n / 3)`, it ends with
`(3 - n mod 3) mod 3` characters `=` after characters of the encoding table, and
the strict decoder returns the bytes. -/
theorem base64_encode_standard (data : List Nat) (hbytes : ∀ b, b ∈ data → b < 256) :
    (base64_encode data).length = 4 * ((data.length + 2) / 3) ∧
    (∃ body, base64_encode data =
        body ++ List.replicate ((3 - data.length % 3) % 3) '=' ∧
      ∀ c, c ∈ body → c ∈ b64_encoding_table) ∧
    base64_decode (base64_encode data) = some data := by
  rw [base64_encode_eq_groups]
  exact ⟨b64_groups_length data, b64_groups_padding data hbytes,
    base64_decode_groups data hbytes⟩

theorem base64_encode_standard_witness :
    base64_encode [77, 97] = "TWE=".toList ∧
    base64_decode (base64_encode [77, 97]) = some [77, 97] ∧
    base64_encode [] = [] :=
  ⟨by decide, (base64_encode_standard [77, 97] (by decide)).2.2, by decide⟩

end LlmImageSearch
